import Mathlib

/-
Verification of the Reactive Flux Engine (Transition Path Theory) described by
the repository's specification and the `tpt.ipynb` notebook.  The repository
ships only narrative notebooks; the engine itself (committors, gross/net flux,
rate, mfpt, pathway decomposition, coarse-graining) is therefore modelled from
the spec, faithfully to its formulas, over an exact linear ordered field
(specialised to the rationals, and to the reals where limits are needed).
-/

namespace TPT

open Finset

variable {K : Type*} [LinearOrderedField K]

/-- Modelled from the spec: the transition matrix `P` is square and
row-stochastic -- every entry is nonnegative and each row sums to one. -/
def rowStochastic {n : ℕ} (P : Fin n → Fin n → K) : Prop :=
  (∀ i j, 0 ≤ P i j) ∧ ∀ i, ∑ j, P i j = 1

/-- Modelled from the spec: the stationary distribution `π` has positive
entries summing to one and satisfies `πP = π`. -/
def stationaryFor {n : ℕ} (P : Fin n → Fin n → K) (pi : Fin n → K) : Prop :=
  (∀ i, 0 < pi i) ∧ (∑ i, pi i = 1) ∧ ∀ j, ∑ i, pi i * P i j = pi j

/-- Modelled from the spec: a valid input for the engine -- `P` row-stochastic,
`π` a positive stationary distribution, `A` and `B` disjoint non-empty sets of
state indices. -/
def validInput {n : ℕ} (P : Fin n → Fin n → K) (pi : Fin n → K)
    (A B : Finset (Fin n)) : Prop :=
  rowStochastic P ∧ stationaryFor P pi ∧ A.Nonempty ∧ B.Nonempty ∧ Disjoint A B

/-- Modelled from the spec: the forward committor boundary value problem.
`q⁺ = 0` on `A`, `q⁺ = 1` on `B`, and `Σ_j L_{ij} q⁺_j = 0` for `i ∉ A ∪ B`
where `L = P - I`.  The committor solver's contract is to return a vector
satisfying exactly this system. -/
def isForwardCommittor {n : ℕ} (P : Fin n → Fin n → K) (A B : Finset (Fin n))
    (q : Fin n → K) : Prop :=
  (∀ i ∈ A, q i = 0) ∧ (∀ i ∈ B, q i = 1) ∧
    ∀ i, i ∉ A → i ∉ B → ∑ j, (P i j - if i = j then 1 else 0) * q j = 0

/-- Modelled from the spec: non-singularity of the reduced committor linear
system -- the homogeneous boundary value problem (zero boundary data) admits
only the zero solution.  When this fails the solver raises
`SingularSystemError` and returns nothing, so every claim about a returned
committor presupposes it. -/
def committorUnique {n : ℕ} (P : Fin n → Fin n → K) (A B : Finset (Fin n)) : Prop :=
  ∀ v : Fin n → K, (∀ i ∈ A, v i = 0) → (∀ i ∈ B, v i = 0) →
    (∀ i, i ∉ A → i ∉ B → ∑ j, P i j * v j = v i) → v = 0

/-- Modelled from the spec: the time-reversed transition matrix
`P*_{ij} = π_j P_{ji} / π_i`. -/
def revTransition {n : ℕ} (P : Fin n → Fin n → K) (pi : Fin n → K) :
    Fin n → Fin n → K :=
  fun i j => pi j * P j i / pi i

/-- Modelled from the spec: the backward committor boundary value problem on
the time-reversed chain.  `q⁻ = 1` on `A`, `q⁻ = 0` on `B`, and the generator
of `P*` annihilates `q⁻` on the complement. -/
def isBackwardCommittor {n : ℕ} (P : Fin n → Fin n → K) (pi : Fin n → K)
    (A B : Finset (Fin n)) (q : Fin n → K) : Prop :=
  (∀ i ∈ A, q i = 1) ∧ (∀ i ∈ B, q i = 0) ∧
    ∀ i, i ∉ A → i ∉ B →
      ∑ j, (revTransition P pi i j - if i = j then 1 else 0) * q j = 0

/-- Modelled from the spec: gross flux `f_{ij} = q⁻_i π_i P_{ij} q⁺_j` for
`i ≠ j`, and `0` on the diagonal. -/
def gross_flux {n : ℕ} (P : Fin n → Fin n → K) (pi qm qp : Fin n → K) :
    Fin n → Fin n → K :=
  fun i j => if i = j then 0 else qm i * pi i * P i j * qp j

/-- Modelled from the spec: net flux `f⁺_{ij} = max (0, f_{ij} - f_{ji})`. -/
def net_flux {n : ℕ} (f : Fin n → Fin n → K) : Fin n → Fin n → K :=
  fun i j => max 0 (f i j - f j i)

/-- Modelled from the spec: total flux `Σ_{i ∈ A, j ∉ A} f_{ij}`. -/
def total_flux {n : ℕ} (f : Fin n → Fin n → K) (A : Finset (Fin n)) : K :=
  ∑ i ∈ A, ∑ j ∈ Aᶜ, f i j

/-- Modelled from the spec: the rate denominator `Σ_i π_i q⁻_i`. -/
def rate_denom {n : ℕ} (pi qm : Fin n → K) : K :=
  ∑ i, pi i * qm i

/-- Modelled from the spec: `rate = total_flux / Σ_i π_i q⁻_i`. -/
def rate {n : ℕ} (f : Fin n → Fin n → K) (A : Finset (Fin n))
    (pi qm : Fin n → K) : K :=
  total_flux f A / rate_denom pi qm

/-- Modelled from the spec: `mfpt = 1 / rate`. -/
def mfpt {n : ℕ} (f : Fin n → Fin n → K) (A : Finset (Fin n))
    (pi qm : Fin n → K) : K :=
  1 / rate f A pi qm

/-- Modelled from the spec: the error taxonomy of the engine. -/
inductive TPTError where
  | invalidStateSet
  | overlappingSets
  | singularSystem
  | degenerateFlux
  | overlappingGroups
  | incompleteCoverage
deriving DecidableEq

/-- Modelled from the spec: eager input validation of the committor solver --
empty `A` or `B` raises `InvalidStateSetError`, overlapping sets raise
`OverlappingSetsError`. -/
def validate_state_sets {n : ℕ} (A B : Finset (Fin n)) : Except TPTError Unit :=
  if A = ∅ ∨ B = ∅ then Except.error TPTError.invalidStateSet
  else if (A ∩ B).Nonempty then Except.error TPTError.overlappingSets
  else Except.ok ()

/-- Modelled from the spec: the committor solver validates its input sets
first and only then runs the heavy computation (the linear solve), which is
abstracted as the parameter `solve`. -/
def committor_solver {n : ℕ}
    (solve : (Fin n → Fin n → ℚ) → Finset (Fin n) → Finset (Fin n) →
      Except TPTError (Fin n → ℚ))
    (P : Fin n → Fin n → ℚ) (A B : Finset (Fin n)) : Except TPTError (Fin n → ℚ) :=
  (validate_state_sets A B).bind fun _ => solve P A B

/-! Concrete data: the three-state chain of the spec's testable-properties
section, `P = [[0.9, 0.1, 0], [0.05, 0.9, 0.05], [0, 0.1, 0.9]]`, `A = {0}`,
`B = {2}`, with stationary distribution `π = (1/4, 1/2, 1/4)`, forward
committor `(0, 1/2, 1)` and backward committor `(1, 1/2, 0)`. -/

def P3 : Fin 3 → Fin 3 → ℚ :=
  ![![9/10, 1/10, 0], ![1/20, 9/10, 1/20], ![0, 1/10, 9/10]]

def pi3 : Fin 3 → ℚ := ![1/4, 1/2, 1/4]

def qp3 : Fin 3 → ℚ := ![0, 1/2, 1]

def qm3 : Fin 3 → ℚ := ![1, 1/2, 0]

def A3 : Finset (Fin 3) := {0}

def B3 : Finset (Fin 3) := {2}

lemma pi3_pos : ∀ i, 0 < pi3 i := by
  intro i; fin_cases i <;> norm_num [pi3]

lemma P3_rowStochastic : rowStochastic P3 := by
  constructor
  · intro i j; fin_cases i <;> fin_cases j <;> norm_num [P3]
  · intro i; fin_cases i <;> norm_num [P3, Fin.sum_univ_three]

lemma pi3_stationary : stationaryFor P3 pi3 := by
  refine ⟨pi3_pos, by norm_num [pi3, Fin.sum_univ_three], ?_⟩
  intro j; fin_cases j <;> norm_num [P3, pi3, Fin.sum_univ_three]

lemma disj3 : Disjoint A3 B3 := by decide

lemma qp3_fc : isForwardCommittor P3 A3 B3 qp3 := by
  refine ⟨?_, ?_, ?_⟩
  · intro i hi
    simp only [A3, Finset.mem_singleton] at hi
    subst hi; norm_num [qp3]
  · intro i hi
    simp only [B3, Finset.mem_singleton] at hi
    subst hi; norm_num [qp3]
  · intro i hiA hiB
    simp only [A3, Finset.mem_singleton] at hiA
    simp only [B3, Finset.mem_singleton] at hiB
    fin_cases i
    · exact absurd rfl hiA
    · norm_num [P3, qp3, Fin.sum_univ_three, Fin.ext_iff]
    · exact absurd rfl hiB

lemma qm3_bc : isBackwardCommittor P3 pi3 A3 B3 qm3 := by
  refine ⟨?_, ?_, ?_⟩
  · intro i hi
    simp only [A3, Finset.mem_singleton] at hi
    subst hi; norm_num [qm3]
  · intro i hi
    simp only [B3, Finset.mem_singleton] at hi
    subst hi; norm_num [qm3]
  · intro i hiA hiB
    simp only [A3, Finset.mem_singleton] at hiA
    simp only [B3, Finset.mem_singleton] at hiB
    fin_cases i
    · exact absurd rfl hiA
    · norm_num [revTransition, P3, pi3, qm3, Fin.sum_univ_three, Fin.ext_iff]
    · exact absurd rfl hiB

/-- Claim C2: the flux assembler returns gross flux
`f_{ij} = q⁻_i π_i P_{ij} q⁺_j` off the diagonal and `0` on it, net flux
`max (0, f_{ij} - f_{ji})`; consequently the net flux is entrywise
nonnegative and vanishes at `(i, j)` whenever `f_{ij} ≤ f_{ji}`. -/
theorem gross_net_flux_spec {n : ℕ} (P : Fin n → Fin n → ℚ) (pi qm qp : Fin n → ℚ) :
    (∀ i j, i ≠ j → gross_flux P pi qm qp i j = qm i * pi i * P i j * qp j) ∧
    (∀ i, gross_flux P pi qm qp i i = 0) ∧
    (∀ i j, net_flux (gross_flux P pi qm qp) i j =
      max 0 (gross_flux P pi qm qp i j - gross_flux P pi qm qp j i)) ∧
    (∀ i j, 0 ≤ net_flux (gross_flux P pi qm qp) i j) ∧
    (∀ i j, gross_flux P pi qm qp i j ≤ gross_flux P pi qm qp j i →
      net_flux (gross_flux P pi qm qp) i j = 0) := by
  refine ⟨fun i j hij => if_neg hij, fun i => if_pos rfl, fun i j => rfl,
    fun i j => le_max_left _ _, fun i j h => ?_⟩
  simp only [net_flux]
  exact max_eq_left (sub_nonpos.mpr h)

/-- Witness for C2 on the three-state chain: the off-diagonal formula at
`(0, 1)` and vanishing of the net flux at `(1, 0)` where the gross flux is
dominated by its reverse. -/
theorem gross_net_flux_spec_witness :
    gross_flux P3 pi3 qm3 qp3 0 1 = qm3 0 * pi3 0 * P3 0 1 * qp3 1 ∧
    net_flux (gross_flux P3 pi3 qm3 qp3) 1 0 = 0 :=
  ⟨(gross_net_flux_spec P3 pi3 qm3 qp3).1 0 1 (by decide),
    (gross_net_flux_spec P3 pi3 qm3 qp3).2.2.2.2 1 0
      (by norm_num [gross_flux, P3, pi3, qm3, qp3])⟩

/-- Claim C5: when the rate denominator `Σ_i π_i q⁻_i` is nonzero, the flux
assembler returns `rate = total_flux / Σ_i π_i q⁻_i` and `mfpt = 1 / rate`,
and `rate = 1 / mfpt` holds exactly as an algebraic identity. -/
theorem rate_mfpt_spec {n : ℕ} (f : Fin n → Fin n → ℚ) (A : Finset (Fin n))
    (pi qm : Fin n → ℚ) (_h : rate_denom pi qm ≠ 0) :
    rate f A pi qm = total_flux f A / rate_denom pi qm ∧
    mfpt f A pi qm = 1 / rate f A pi qm ∧
    rate f A pi qm = 1 / mfpt f A pi qm :=
  ⟨rfl, rfl, by rw [mfpt, one_div_one_div]⟩

/-- Witness for C5 on the three-state chain, whose rate denominator is
`1/2 ≠ 0`. -/
theorem rate_mfpt_spec_witness :
    rate_denom pi3 qm3 ≠ 0 ∧
    rate (gross_flux P3 pi3 qm3 qp3) A3 pi3 qm3 =
      1 / mfpt (gross_flux P3 pi3 qm3 qp3) A3 pi3 qm3 :=
  ⟨by norm_num [rate_denom, pi3, qm3, Fin.sum_univ_three],
    (rate_mfpt_spec (gross_flux P3 pi3 qm3 qp3) A3 pi3 qm3
      (by norm_num [rate_denom, pi3, qm3, Fin.sum_univ_three])).2.2⟩

lemma sum_delta_mul {n : ℕ} (i : Fin n) (q : Fin n → K) :
    ∑ j, (if i = j then (1 : K) else 0) * q j = q i := by
  simp [ite_mul]

/-- The interior equation of the forward committor, rewritten:
`Σ_j P_{ij} q_j = q_i` away from `A ∪ B`. -/
lemma forward_interior {n : ℕ} {P : Fin n → Fin n → K} {A B : Finset (Fin n)}
    {q : Fin n → K} (hq : isForwardCommittor P A B q) {i : Fin n}
    (hiA : i ∉ A) (hiB : i ∉ B) : ∑ j, P i j * q j = q i := by
  have h := hq.2.2 i hiA hiB
  simp only [sub_mul, Finset.sum_sub_distrib, sum_delta_mul] at h
  exact sub_eq_zero.mp h

/-- The interior equation of the backward committor, cleared of the division
by `π_i`: `Σ_j π_j P_{ji} q_j = π_i q_i` away from `A ∪ B`. -/
lemma backward_interior {n : ℕ} {P : Fin n → Fin n → K} {pi : Fin n → K}
    {A B : Finset (Fin n)} {q : Fin n → K} (hpi : ∀ i, 0 < pi i)
    (hq : isBackwardCommittor P pi A B q) {i : Fin n}
    (hiA : i ∉ A) (hiB : i ∉ B) : ∑ j, pi j * P j i * q j = pi i * q i := by
  have h := hq.2.2 i hiA hiB
  simp only [sub_mul, Finset.sum_sub_distrib, sum_delta_mul, revTransition] at h
  have h2 : ∑ j, pi j * P j i / pi i * q j = q i := sub_eq_zero.mp h
  have h3 : ∑ j, pi j * P j i / pi i * q j = (∑ j, pi j * P j i * q j) / pi i := by
    rw [Finset.sum_div]
    exact Finset.sum_congr rfl fun j _ => by ring
  rw [h3, div_eq_iff (ne_of_gt (hpi i))] at h2
  rw [h2]; ring

/-- Claim C9: the committor solver fails with `InvalidStateSetError` whenever
`A` or `B` is empty and with `OverlappingSetsError` whenever `A ∩ B ≠ ∅`, in
both cases purely by input validation -- the result is the error for every
possible linear-solve routine, so the heavy computation is never consulted. -/
theorem committor_solver_validation {n : ℕ} (P : Fin n → Fin n → ℚ)
    (A B : Finset (Fin n)) :
    ((A = ∅ ∨ B = ∅) → ∀ solve,
      committor_solver solve P A B = Except.error TPTError.invalidStateSet) ∧
    (A ≠ ∅ → B ≠ ∅ → (A ∩ B).Nonempty → ∀ solve,
      committor_solver solve P A B = Except.error TPTError.overlappingSets) := by
  constructor
  · intro h solve
    simp [committor_solver, validate_state_sets, h, Except.bind]
  · intro hA hB hAB solve
    have hor : ¬(A = ∅ ∨ B = ∅) := by
      rintro (h | h) <;> [exact hA h; exact hB h]
    simp [committor_solver, validate_state_sets, hor, hAB, Except.bind]

/-- Witness for C9: with `A = ∅` the solver reports an invalid state set, and
with `A = B = {0}` it reports overlapping sets, for a trivial solve routine. -/
theorem committor_solver_validation_witness :
    committor_solver (fun _ _ _ => Except.ok (fun _ => 0)) P3 ∅ B3 =
      Except.error TPTError.invalidStateSet ∧
    committor_solver (fun _ _ _ => Except.ok (fun _ => 0)) P3 A3 A3 =
      Except.error TPTError.overlappingSets :=
  ⟨(committor_solver_validation P3 ∅ B3).1 (Or.inl rfl) _,
    (committor_solver_validation P3 A3 A3).2 (by decide) (by decide) (by decide) _⟩

/-- Row sum of the gross flux at an intermediate state. -/
lemma gross_flux_row_sum {n : ℕ} {P : Fin n → Fin n → K} {pi qm qp : Fin n → K}
    {A B : Finset (Fin n)} (hqp : isForwardCommittor P A B qp) {i : Fin n}
    (hiA : i ∉ A) (hiB : i ∉ B) :
    ∑ j, gross_flux P pi qm qp i j
      = qm i * pi i * qp i - qm i * pi i * P i i * qp i := by
  have hsplit : ∀ j, gross_flux P pi qm qp i j
      = qm i * pi i * P i j * qp j
        - (if i = j then qm i * pi i * P i j * qp j else 0) := by
    intro j
    by_cases h : i = j <;> simp [gross_flux, h]
  rw [Finset.sum_congr rfl fun j _ => hsplit j, Finset.sum_sub_distrib]
  have hdiag : ∑ j, (if i = j then qm i * pi i * P i j * qp j else 0)
      = qm i * pi i * P i i * qp i := by
    rw [Finset.sum_ite_eq]; simp
  have hfac : ∑ j, qm i * pi i * P i j * qp j
      = qm i * pi i * ∑ j, P i j * qp j := by
    rw [Finset.mul_sum]
    exact Finset.sum_congr rfl fun j _ => by ring
  rw [hdiag, hfac, forward_interior hqp hiA hiB]

/-- Column sum of the gross flux at an intermediate state. -/
lemma gross_flux_col_sum {n : ℕ} {P : Fin n → Fin n → K} {pi qm qp : Fin n → K}
    {A B : Finset (Fin n)} (hpi : ∀ i, 0 < pi i)
    (hqm : isBackwardCommittor P pi A B qm) {i : Fin n}
    (hiA : i ∉ A) (hiB : i ∉ B) :
    ∑ j, gross_flux P pi qm qp j i
      = pi i * qm i * qp i - qm i * pi i * P i i * qp i := by
  have hsplit : ∀ j, gross_flux P pi qm qp j i
      = qm j * pi j * P j i * qp i
        - (if j = i then qm j * pi j * P j i * qp i else 0) := by
    intro j
    by_cases h : j = i <;> simp [gross_flux, h]
  rw [Finset.sum_congr rfl fun j _ => hsplit j, Finset.sum_sub_distrib]
  have hdiag : ∑ j, (if j = i then qm j * pi j * P j i * qp i else 0)
      = qm i * pi i * P i i * qp i := by
    rw [Finset.sum_ite_eq']; simp
  have hfac : ∑ j, qm j * pi j * P j i * qp i
      = (∑ j, pi j * P j i * qm j) * qp i := by
    rw [Finset.sum_mul]
    exact Finset.sum_congr rfl fun j _ => by ring
  rw [hdiag, hfac, backward_interior hpi hqm hiA hiB]

/-- Claim C3: the gross flux is conserved -- at every intermediate state
`i ∉ A ∪ B` the flux out equals the flux in, and globally the flux leaving
`A` equals the flux entering `B`. -/
theorem gross_flux_conservation {n : ℕ} (P : Fin n → Fin n → ℚ)
    (pi qm qp : Fin n → ℚ) (A B : Finset (Fin n))
    (hpi : ∀ i, 0 < pi i) (hAB : Disjoint A B)
    (hqp : isForwardCommittor P A B qp) (hqm : isBackwardCommittor P pi A B qm) :
    (∀ i, i ∉ A → i ∉ B →
      ∑ j, gross_flux P pi qm qp i j = ∑ j, gross_flux P pi qm qp j i) ∧
    ∑ i ∈ A, ∑ j ∈ Aᶜ, gross_flux P pi qm qp i j
      = ∑ i ∈ Bᶜ, ∑ j ∈ B, gross_flux P pi qm qp i j := by
  set f := gross_flux P pi qm qp with hf
  have hcons : ∀ i, i ∉ A → i ∉ B → ∑ j, f i j = ∑ j, f j i := by
    intro i hiA hiB
    rw [hf, gross_flux_row_sum hqp hiA hiB, gross_flux_col_sum hpi hqm hiA hiB]
    ring
  refine ⟨hcons, ?_⟩
  have hB0 : ∀ i ∈ B, ∀ j, f i j = 0 := by
    intro i hi j; simp [hf, gross_flux, hqm.2.1 i hi]
  have hA0 : ∀ j ∈ A, ∀ i, f i j = 0 := by
    intro j hj i; simp [hf, gross_flux, hqp.1 j hj]
  have hL : ∑ i ∈ A, ∑ j ∈ Aᶜ, f i j = ∑ i ∈ A, ∑ j, f i j := by
    refine Finset.sum_congr rfl fun i _ => ?_
    rw [← Finset.sum_add_sum_compl A (f i),
      Finset.sum_eq_zero fun j hj => hA0 j hj i, zero_add]
  have hR : ∑ i ∈ Bᶜ, ∑ j ∈ B, f i j = ∑ j ∈ B, ∑ i, f i j := by
    have hall := Finset.sum_add_sum_compl B (fun i => ∑ j ∈ B, f i j)
    have hz : ∑ i ∈ B, ∑ j ∈ B, f i j = 0 :=
      Finset.sum_eq_zero fun i hi => Finset.sum_eq_zero fun j _ => hB0 i hi j
    have hfull : ∑ i ∈ Bᶜ, ∑ j ∈ B, f i j = ∑ i, ∑ j ∈ B, f i j := by
      linarith
    rw [hfull]
    exact Finset.sum_comm
  rw [hL, hR]
  have htot : ∑ i, ∑ j, f i j = ∑ j, ∑ i, f i j := Finset.sum_comm
  have hsplitA : ∑ i ∈ A, ∑ j, f i j + ∑ i ∈ Aᶜ, ∑ j, f i j = ∑ i, ∑ j, f i j :=
    Finset.sum_add_sum_compl A _
  have hsplitB : ∑ j ∈ B, ∑ i, f i j + ∑ j ∈ Bᶜ, ∑ i, f i j = ∑ j, ∑ i, f i j :=
    Finset.sum_add_sum_compl B _
  have hmid : ∑ i ∈ Aᶜ, ∑ j, f i j = ∑ j ∈ Bᶜ, ∑ i, f i j := by
    have hAc : ∑ i ∈ Aᶜ, ∑ j, f i j
        = ∑ i ∈ Aᶜ.filter (· ∈ B), ∑ j, f i j
          + ∑ i ∈ Aᶜ.filter (· ∉ B), ∑ j, f i j :=
      (Finset.sum_filter_add_sum_filter_not _ _ _).symm
    have hBc : ∑ j ∈ Bᶜ, ∑ i, f i j
        = ∑ j ∈ Bᶜ.filter (· ∈ A), ∑ i, f i j
          + ∑ j ∈ Bᶜ.filter (· ∉ A), ∑ i, f i j :=
      (Finset.sum_filter_add_sum_filter_not _ _ _).symm
    have hfB : Aᶜ.filter (· ∈ B) = B := by
      ext i
      simp only [Finset.mem_filter, Finset.mem_compl]
      exact ⟨fun h => h.2, fun h => ⟨fun hA => Finset.disjoint_left.mp hAB hA h, h⟩⟩
    have hfA : Bᶜ.filter (· ∈ A) = A := by
      ext i
      simp only [Finset.mem_filter, Finset.mem_compl]
      exact ⟨fun h => h.2, fun h => ⟨fun hB => Finset.disjoint_left.mp hAB h hB, h⟩⟩
    have hsame : Aᶜ.filter (· ∉ B) = Bᶜ.filter (· ∉ A) := by
      ext i
      simp only [Finset.mem_filter, Finset.mem_compl]
      tauto
    have hzB : ∑ i ∈ B, ∑ j, f i j = 0 :=
      Finset.sum_eq_zero fun i hi => Finset.sum_eq_zero fun j _ => hB0 i hi j
    have hzA : ∑ j ∈ A, ∑ i, f i j = 0 :=
      Finset.sum_eq_zero fun j hj => Finset.sum_eq_zero fun i _ => hA0 j hj i
    have hcs : ∑ i ∈ Aᶜ.filter (· ∉ B), ∑ j, f i j
        = ∑ j ∈ Bᶜ.filter (· ∉ A), ∑ i, f i j := by
      rw [← hsame]
      refine Finset.sum_congr rfl fun i hi => ?_
      simp only [Finset.mem_filter, Finset.mem_compl] at hi
      exact hcons i hi.1 hi.2
    rw [hAc, hBc, hfB, hfA, hzB, hzA, hcs]
  linarith

/-- Witness for C3 on the three-state chain with its committors. -/
theorem gross_flux_conservation_witness :
    ∑ i ∈ A3, ∑ j ∈ A3ᶜ, gross_flux P3 pi3 qm3 qp3 i j
      = ∑ i ∈ B3ᶜ, ∑ j ∈ B3, gross_flux P3 pi3 qm3 qp3 i j :=
  (gross_flux_conservation P3 pi3 qm3 qp3 A3 B3 pi3_pos disj3 qp3_fc qm3_bc).2

/-- Claim C6: when the chain is reversible (`π_i P_{ij} = π_j P_{ji}` for all
`i, j`), the backward committor returned by the solver is `q⁻_i = 1 - q⁺_i`
for every state.  Well-posedness of the backward boundary value problem (the
solver returns its unique solution) is the `huniq` hypothesis. -/
theorem backward_committor_reversible {n : ℕ} (P : Fin n → Fin n → ℚ)
    (pi : Fin n → ℚ) (A B : Finset (Fin n)) (qp qm : Fin n → ℚ)
    (hP : rowStochastic P) (hpi : ∀ i, 0 < pi i)
    (hrev : ∀ i j, pi i * P i j = pi j * P j i)
    (hqp : isForwardCommittor P A B qp)
    (hqm : isBackwardCommittor P pi A B qm)
    (huniq : ∀ q1 q2, isBackwardCommittor P pi A B q1 →
      isBackwardCommittor P pi A B q2 → q1 = q2) :
    qm = fun i => 1 - qp i := by
  have hPstar : ∀ i j, revTransition P pi i j = P i j := by
    intro i j
    rw [revTransition, ← hrev i j, mul_div_cancel_left₀ _ (ne_of_gt (hpi i))]
  have hOneMinus : isBackwardCommittor P pi A B (fun i => 1 - qp i) := by
    refine ⟨?_, ?_, ?_⟩
    · intro i hi; simp [hqp.1 i hi]
    · intro i hi; simp [hqp.2.1 i hi]
    · intro i hiA hiB
      simp only [hPstar]
      have hexp : ∀ j, (P i j - if i = j then (1 : ℚ) else 0) * (1 - qp j)
          = (P i j - if i = j then 1 else 0)
            - (P i j - if i = j then 1 else 0) * qp j := by
        intro j; ring
      rw [Finset.sum_congr rfl fun j _ => hexp j, Finset.sum_sub_distrib,
        hqp.2.2 i hiA hiB, Finset.sum_sub_distrib, hP.2 i]
      simp
  exact huniq qm _ hqm hOneMinus

lemma rev3 : ∀ i j, pi3 i * P3 i j = pi3 j * P3 j i := by
  intro i j; fin_cases i <;> fin_cases j <;> norm_num [pi3, P3]

lemma bwd_uniq3 : ∀ q1 q2, isBackwardCommittor P3 pi3 A3 B3 q1 →
    isBackwardCommittor P3 pi3 A3 B3 q2 → q1 = q2 := by
  intro q1 q2 h1 h2
  have hval : ∀ q, isBackwardCommittor P3 pi3 A3 B3 q → q 1 = 1/2 := by
    intro q h
    have b0 : q 0 = 1 := h.1 0 (by decide)
    have b2 : q 2 = 0 := h.2.1 2 (by decide)
    have e := h.2.2 1 (by decide) (by decide)
    rw [Fin.sum_univ_three] at e
    norm_num [revTransition, P3, pi3, b0, b2, Fin.ext_iff] at e
    linarith
  funext i
  fin_cases i
  · show q1 0 = q2 0
    rw [h1.1 0 (by decide), h2.1 0 (by decide)]
  · show q1 1 = q2 1
    rw [hval q1 h1, hval q2 h2]
  · show q1 2 = q2 2
    rw [h1.2.1 2 (by decide), h2.2.1 2 (by decide)]

/-- Witness for C6: on the reversible three-state chain the backward
committor `(1, 1/2, 0)` is exactly `1 - q⁺`. -/
theorem backward_committor_reversible_witness :
    qm3 = fun i => 1 - qp3 i :=
  backward_committor_reversible P3 pi3 A3 B3 qp3 qm3 P3_rowStochastic pi3_pos
    rev3 qp3_fc qm3_bc bwd_uniq3

/-- Modelled from the spec: a coarse partition of the state space is given by
the assignment `part` of each state to its group; the stationary weight of a
group is the sum of its members' weights. -/
def lumped_pi {n k : ℕ} (pi : Fin n → K) (part : Fin n → Fin k) (g : Fin k) : K :=
  ∑ i ∈ Finset.univ.filter (fun i => part i = g), pi i

/-- Modelled from the spec: lumped backward committor -- the
stationary-weighted average of `q⁻` within the group. -/
def lumped_qm {n k : ℕ} (pi qm : Fin n → K) (part : Fin n → Fin k) (g : Fin k) : K :=
  (∑ i ∈ Finset.univ.filter (fun i => part i = g), pi i * qm i) / lumped_pi pi part g

/-- Modelled from the spec: lumped gross flux between groups,
`F_{GH} = Σ_{i ∈ G, j ∈ H} f_{ij}`. -/
def lumped_flux {n k : ℕ} (f : Fin n → Fin n → K) (part : Fin n → Fin k)
    (g h : Fin k) : K :=
  ∑ i ∈ Finset.univ.filter (fun i => part i = g),
    ∑ j ∈ Finset.univ.filter (fun j => part j = h), f i j

/-- Claim C4: for a partition in which `A` is exactly one group (`gA`) and `B`
exactly one group (`gB`), coarse-graining produces the lumped gross flux
`F_{GH} = Σ_{i ∈ G, j ∈ H} f_{ij}`, and the total flux and rate recomputed
identically on the lumped network equal the ungrouped ones exactly. -/
theorem coarse_grain_preserves {n k : ℕ} (f : Fin n → Fin n → ℚ)
    (pi qm : Fin n → ℚ) (A B : Finset (Fin n)) (part : Fin n → Fin k)
    (gA gB : Fin k) (hpi : ∀ i, 0 < pi i)
    (hA : ∀ i, part i = gA ↔ i ∈ A) (_hB : ∀ i, part i = gB ↔ i ∈ B) :
    (∀ g h, lumped_flux f part g h
      = ∑ i ∈ Finset.univ.filter (fun i => part i = g),
          ∑ j ∈ Finset.univ.filter (fun j => part j = h), f i j) ∧
    total_flux (lumped_flux f part) {gA} = total_flux f A ∧
    rate (lumped_flux f part) {gA} (lumped_pi pi part) (lumped_qm pi qm part)
      = rate f A pi qm := by
  have hfibergA : Finset.univ.filter (fun i => part i = gA) = A := by
    ext i; simp [hA i]
  have hcomplA : Finset.univ.filter (fun i => part i ≠ gA) = Aᶜ := by
    ext i; simp [hA i]
  have htot : total_flux (lumped_flux f part) {gA} = total_flux f A := by
    rw [total_flux, Finset.sum_singleton, total_flux]
    calc ∑ h ∈ ({gA} : Finset (Fin k))ᶜ, lumped_flux f part gA h
        = ∑ h ∈ ({gA} : Finset (Fin k))ᶜ, ∑ i ∈ A,
            ∑ j ∈ Finset.univ.filter (fun j => part j = h), f i j := by
          refine Finset.sum_congr rfl fun h _ => ?_
          rw [lumped_flux, hfibergA]
      _ = ∑ i ∈ A, ∑ h ∈ ({gA} : Finset (Fin k))ᶜ,
            ∑ j ∈ Finset.univ.filter (fun j => part j = h), f i j :=
          Finset.sum_comm
      _ = ∑ i ∈ A, ∑ j ∈ Aᶜ, f i j := by
          refine Finset.sum_congr rfl fun i _ => ?_
          rw [← hcomplA]
          have hmap : ∀ x ∈ Finset.univ.filter (fun j => part j ≠ gA),
              part x ∈ ({gA} : Finset (Fin k))ᶜ := by
            intro x hx
            simp only [Finset.mem_filter, Finset.mem_univ, true_and] at hx
            simpa [Finset.mem_compl] using hx
          have hfw := Finset.sum_fiberwise_of_maps_to hmap (f i)
          rw [← hfw]
          refine Finset.sum_congr rfl fun h hh => ?_
          have hhne : h ≠ gA := by simpa [Finset.mem_compl] using hh
          congr 1
          ext j
          simp only [Finset.mem_filter, Finset.mem_univ, true_and]
          constructor
          · intro hj
            refine ⟨?_, hj⟩
            rw [hj]; exact hhne
          · intro hj; exact hj.2
  have hdenom : rate_denom (lumped_pi pi part) (lumped_qm pi qm part)
      = rate_denom pi qm := by
    rw [rate_denom, rate_denom]
    have hg : ∀ g, lumped_pi pi part g * lumped_qm pi qm part g
        = ∑ i ∈ Finset.univ.filter (fun i => part i = g), pi i * qm i := by
      intro g
      by_cases hne : (Finset.univ.filter (fun i => part i = g)).Nonempty
      · have hpos : 0 < lumped_pi pi part g :=
          Finset.sum_pos (fun i _ => hpi i) hne
        rw [lumped_qm, mul_comm, div_mul_cancel₀ _ (ne_of_gt hpos)]
      · rw [Finset.not_nonempty_iff_eq_empty] at hne
        rw [lumped_qm, lumped_pi, hne]
        simp
    rw [Finset.sum_congr rfl fun g _ => hg g]
    exact Finset.sum_fiberwise _ _ _
  exact ⟨fun g h => rfl, htot, by rw [rate, rate, htot, hdenom]⟩

/-- Witness for C4: the identity partition of the three-state chain into the
three singleton groups, with `A = {0}` as group `0` and `B = {2}` as group
`2`, preserves the rate exactly. -/
theorem coarse_grain_preserves_witness :
    rate (lumped_flux (gross_flux P3 pi3 qm3 qp3) (fun i => i)) {0}
        (lumped_pi pi3 (fun i => i)) (lumped_qm pi3 qm3 (fun i => i))
      = rate (gross_flux P3 pi3 qm3 qp3) A3 pi3 qm3 :=
  (coarse_grain_preserves (gross_flux P3 pi3 qm3 qp3) pi3 qm3 A3 B3
    (fun i => i) 0 2 pi3_pos (by decide) (by decide)).2.2

/-- The full linear operator of the committor solve: identity rows on the
boundary `A ∪ B`, generator rows `P - I` in the interior.  Its kernel is
exactly the set of homogeneous boundary value problem solutions, so
`committorUnique` says it is injective. -/
def bvpOperator {n : ℕ} (P : Fin n → Fin n → ℚ) (A B : Finset (Fin n)) :
    Matrix (Fin n) (Fin n) ℚ :=
  fun i j => if i ∈ A ∪ B then (if j = i then 1 else 0)
    else P i j - if j = i then 1 else 0

/-- The generator restricted to a subset `E` of states (rows and columns in
`E`), used to exhibit singularity when a closed set of states avoids the
boundary. -/
def subOperator {n : ℕ} (P : Fin n → Fin n → ℚ) (E : Finset (Fin n)) :
    Matrix {x // x ∈ E} {x // x ∈ E} ℚ :=
  fun i j => P i.1 j.1 - if j.1 = i.1 then 1 else 0

lemma bvpOperator_mulVec {n : ℕ} (P : Fin n → Fin n → ℚ) (A B : Finset (Fin n))
    (v : Fin n → ℚ) (i : Fin n) :
    (bvpOperator P A B).mulVec v i
      = if i ∈ A ∪ B then v i else (∑ j, P i j * v j) - v i := by
  by_cases hi : i ∈ A ∪ B
  · simp [Matrix.mulVec, Matrix.dotProduct, bvpOperator, hi, ite_mul,
      Finset.sum_ite_eq']
  · simp [Matrix.mulVec, Matrix.dotProduct, bvpOperator, hi, sub_mul,
      Finset.sum_sub_distrib, ite_mul, Finset.sum_ite_eq']

lemma bvpOperator_injective {n : ℕ} {P : Fin n → Fin n → ℚ}
    {A B : Finset (Fin n)} (hker : committorUnique P A B) :
    Function.Injective ((bvpOperator P A B).mulVecLin) := by
  rw [injective_iff_map_eq_zero]
  intro v hv
  have hv' : ∀ i, (bvpOperator P A B).mulVec v i = 0 := fun i => by
    rw [← Matrix.mulVecLin_apply, hv]; rfl
  have hA0 : ∀ i ∈ A, v i = 0 := by
    intro i hi
    have h := hv' i
    rwa [bvpOperator_mulVec, if_pos (Finset.mem_union_left B hi)] at h
  have hB0 : ∀ i ∈ B, v i = 0 := by
    intro i hi
    have h := hv' i
    rwa [bvpOperator_mulVec, if_pos (Finset.mem_union_right A hi)] at h
  have hint : ∀ i, i ∉ A → i ∉ B → ∑ j, P i j * v j = v i := by
    intro i hiA hiB
    have h := hv' i
    rw [bvpOperator_mulVec, if_neg (by simp [hiA, hiB])] at h
    linarith
  exact hker v hA0 hB0 hint

lemma subOperator_mulVec_one {n : ℕ} {P : Fin n → Fin n → ℚ}
    {E : Finset (Fin n)} (hrow : ∀ i ∈ E, ∑ j ∈ E, P i j = 1) :
    (subOperator P E).mulVec (fun _ => 1) = 0 := by
  funext i
  have h1 : ∑ j : {x // x ∈ E}, P i.1 j.1 = ∑ j ∈ E, P i j :=
    Finset.sum_coe_sort E (fun j => P i.1 j)
  have h2 : ∑ j : {x // x ∈ E}, (if j.1 = i.1 then (1 : ℚ) else 0)
      = ∑ j ∈ E, (if j = i.1 then (1 : ℚ) else 0) :=
    Finset.sum_coe_sort E (fun j => if j = i.1 then (1 : ℚ) else 0)
  simp only [Matrix.mulVec, Matrix.dotProduct, subOperator, mul_one,
    Finset.sum_sub_distrib, Pi.zero_apply]
  rw [h1, h2, hrow i.1 i.2, Finset.sum_ite_eq' E i.1, if_pos i.2]
  ring

lemma subOperator_not_injective {n : ℕ} {P : Fin n → Fin n → ℚ}
    {E : Finset (Fin n)} (hEne : E.Nonempty)
    (hrow : ∀ i ∈ E, ∑ j ∈ E, P i j = 1) :
    ¬ Function.Injective ((subOperator P E).mulVecLin) := by
  intro hinj
  have h0 : (subOperator P E).mulVecLin (fun _ => 1)
      = (subOperator P E).mulVecLin 0 := by
    rw [map_zero, Matrix.mulVecLin_apply, subOperator_mulVec_one hrow]
  have h1 : (fun _ => (1 : ℚ)) = (0 : {x // x ∈ E} → ℚ) := hinj h0
  obtain ⟨e, he⟩ := hEne
  have := congrFun h1 ⟨e, he⟩
  norm_num at this

/-- Maximum principle: a solution of the committor boundary value problem
cannot exceed `1` anywhere when the reduced linear system is non-singular --
otherwise the set of maximisers is a closed set of interior states on which
the generator restricted to it is singular, contradicting injectivity of the
full solve operator. -/
lemma interior_max_contra {n : ℕ} {P : Fin n → Fin n → ℚ} {A B : Finset (Fin n)}
    {q : Fin n → ℚ} (hP : rowStochastic P)
    (hq0 : ∀ i ∈ A, q i = 0) (hq1 : ∀ i ∈ B, q i = 1)
    (hint : ∀ i, i ∉ A → i ∉ B → ∑ j, P i j * q j = q i)
    (hker : committorUnique P A B) {i₀ : Fin n} (hi₀ : 1 < q i₀) : False := by
  have hne : (Finset.univ : Finset (Fin n)).Nonempty := ⟨i₀, Finset.mem_univ _⟩
  set M := Finset.univ.sup' hne q with hM
  have hMle : ∀ j, q j ≤ M := fun j => Finset.le_sup' q (Finset.mem_univ j)
  have hM1 : 1 < M := lt_of_lt_of_le hi₀ (hMle i₀)
  set E := Finset.univ.filter (fun i => q i = M) with hE
  have hmemE : ∀ i, i ∈ E ↔ q i = M := by intro i; simp [hE]
  have hEne : E.Nonempty := by
    obtain ⟨b, _, hb⟩ := Finset.exists_mem_eq_sup' hne q
    exact ⟨b, (hmemE b).mpr hb.symm⟩
  have hEA : ∀ i ∈ E, i ∉ A := by
    intro i hi hiA
    have h1 := hq0 i hiA
    have h2 := (hmemE i).mp hi
    linarith
  have hEB : ∀ i ∈ E, i ∉ B := by
    intro i hi hiB
    have h1 := hq1 i hiB
    have h2 := (hmemE i).mp hi
    linarith
  have hclosed : ∀ i ∈ E, ∀ j, 0 < P i j → j ∈ E := by
    intro i hi j hPij
    have hiM := (hmemE i).mp hi
    have hintM : ∑ k, P i k * q k = M := by rw [hint i (hEA i hi) (hEB i hi), hiM]
    have hsum1 : ∑ k, P i k * M = M := by rw [← Finset.sum_mul, hP.2 i, one_mul]
    have hzero : ∑ k, P i k * (M - q k) = 0 := by
      have hexp : ∀ k, P i k * (M - q k) = P i k * M - P i k * q k := fun k => by
        ring
      rw [Finset.sum_congr rfl fun k _ => hexp k, Finset.sum_sub_distrib, hsum1,
        hintM, sub_self]
    have hterm := (Finset.sum_eq_zero_iff_of_nonneg
      (fun k _ => mul_nonneg (hP.1 i k) (sub_nonneg.mpr (hMle k)))).mp hzero j
      (Finset.mem_univ j)
    have hMq : M - q j = 0 := by
      rcases mul_eq_zero.mp hterm with h | h
      · exact absurd h (ne_of_gt hPij)
      · exact h
    exact (hmemE j).mpr (by linarith)
  have hrowE : ∀ i ∈ E, ∑ j ∈ E, P i j = 1 := by
    intro i hi
    have hout : ∑ j ∈ Eᶜ, P i j = 0 := by
      refine Finset.sum_eq_zero fun j hj => ?_
      rw [Finset.mem_compl] at hj
      by_contra hne0
      exact hj (hclosed i hi j (lt_of_le_of_ne (hP.1 i j) (Ne.symm hne0)))
    have hall := Finset.sum_add_sum_compl E (P i)
    have h1 := hP.2 i
    rw [hout] at hall
    linarith
  have hsurj : Function.Surjective ((bvpOperator P A B).mulVecLin) :=
    (LinearMap.injective_iff_surjective).mp (bvpOperator_injective hker)
  have hnotsurjE : ¬ Function.Surjective ((subOperator P E).mulVecLin) := by
    intro hs
    exact subOperator_not_injective hEne hrowE
      ((LinearMap.injective_iff_surjective).mpr hs)
  have hcex : ∃ c, ∀ x, (subOperator P E).mulVec x ≠ c := by
    by_contra hcon
    push_neg at hcon
    apply hnotsurjE
    intro c
    obtain ⟨x, hx⟩ := hcon c
    exact ⟨x, by rw [Matrix.mulVecLin_apply, hx]⟩
  obtain ⟨c, hc⟩ := hcex
  set w : Fin n → ℚ := fun i => if h : i ∈ E then c ⟨i, h⟩ else 0 with hw
  obtain ⟨v, hv⟩ := hsurj w
  refine hc (fun j => v j.1) ?_
  funext i
  have hiE := i.2
  have hiA := hEA i.1 hiE
  have hiB := hEB i.1 hiE
  have hvi : (bvpOperator P A B).mulVec v i.1 = w i.1 := by
    rw [← Matrix.mulVecLin_apply, hv]
  rw [bvpOperator_mulVec, if_neg (by simp [hiA, hiB])] at hvi
  have hwi : w i.1 = c i := by
    rw [hw]
    simp only
    rw [dif_pos hiE]
  have hsplit : ∑ j, P i.1 j * v j = ∑ j ∈ E, P i.1 j * v j := by
    rw [← Finset.sum_add_sum_compl E (fun j => P i.1 j * v j)]
    have hz : ∑ j ∈ Eᶜ, P i.1 j * v j = 0 := by
      refine Finset.sum_eq_zero fun j hj => ?_
      rw [Finset.mem_compl] at hj
      have hPz : P i.1 j = 0 := by
        by_contra hne0
        exact hj (hclosed i.1 hiE j (lt_of_le_of_ne (hP.1 i.1 j) (Ne.symm hne0)))
      rw [hPz, zero_mul]
    rw [hz, add_zero]
  have hsub : (subOperator P E).mulVec (fun j => v j.1) i
      = (∑ j ∈ E, P i.1 j * v j) - v i.1 := by
    simp only [Matrix.mulVec, Matrix.dotProduct, subOperator, sub_mul,
      Finset.sum_sub_distrib]
    rw [Finset.sum_coe_sort E (fun j => P i.1 j * v j),
      Finset.sum_coe_sort E (fun j => (if j = i.1 then (1 : ℚ) else 0) * v j)]
    have hdiag : ∑ j ∈ E, (if j = i.1 then (1 : ℚ) else 0) * v j = v i.1 := by
      simp only [ite_mul, one_mul, zero_mul]
      rw [Finset.sum_ite_eq' E i.1, if_pos hiE]
    rw [hdiag]
  rw [hsub, ← hsplit, hvi, hwi]

/-- Any committor returned by a successful solve lies below `1` everywhere. -/
lemma committor_le_one {n : ℕ} {P : Fin n → Fin n → ℚ} {A B : Finset (Fin n)}
    {q : Fin n → ℚ} (hP : rowStochastic P) (hker : committorUnique P A B)
    (hq : isForwardCommittor P A B q) : ∀ i, q i ≤ 1 := by
  intro i
  by_contra hgt
  push_neg at hgt
  exact interior_max_contra hP hq.1 hq.2.1
    (fun i hiA hiB => forward_interior hq hiA hiB) hker hgt

/-- Any committor returned by a successful solve is nonnegative everywhere. -/
lemma committor_nonneg {n : ℕ} {P : Fin n → Fin n → ℚ} {A B : Finset (Fin n)}
    {q : Fin n → ℚ} (hP : rowStochastic P) (hker : committorUnique P A B)
    (hq : isForwardCommittor P A B q) : ∀ i, 0 ≤ q i := by
  intro i
  by_contra hlt
  push_neg at hlt
  have hker' : committorUnique P B A := fun v hB0 hA0 hi =>
    hker v hA0 hB0 (fun j hjA hjB => hi j hjB hjA)
  have hq0 : ∀ j ∈ B, (fun k => 1 - q k) j = 0 := fun j hj => by
    simp [hq.2.1 j hj]
  have hq1 : ∀ j ∈ A, (fun k => 1 - q k) j = 1 := fun j hj => by
    simp [hq.1 j hj]
  have hint : ∀ j, j ∉ B → j ∉ A → ∑ k, P j k * (1 - q k) = 1 - q j := by
    intro j hjB hjA
    have h1 : ∑ k, P j k * (1 - q k) = ∑ k, P j k - ∑ k, P j k * q k := by
      rw [← Finset.sum_sub_distrib]
      exact Finset.sum_congr rfl fun k _ => by ring
    rw [h1, hP.2 j, forward_interior hq hjA hjB]
  exact @interior_max_contra n P B A (fun k => 1 - q k) hP hq0 hq1 hint hker' i
    (by simpa using by linarith)

/-- Claim C1: for every valid input on which the committor solve succeeds
(non-singular reduced system), the returned forward committor vanishes on
`A`, is one on `B`, lies in `[0, 1]` everywhere, and satisfies the generator
equation `Σ_j (P - I)_{ij} q⁺_j = 0` away from `A ∪ B`. -/
theorem forward_committor_spec {n : ℕ} (P : Fin n → Fin n → ℚ)
    (pi : Fin n → ℚ) (A B : Finset (Fin n)) (q : Fin n → ℚ)
    (hvalid : validInput P pi A B) (hker : committorUnique P A B)
    (hq : isForwardCommittor P A B q) :
    (∀ i ∈ A, q i = 0) ∧ (∀ i ∈ B, q i = 1) ∧
    (∀ i, 0 ≤ q i ∧ q i ≤ 1) ∧
    (∀ i, i ∉ A → i ∉ B →
      ∑ j, (P i j - if i = j then 1 else 0) * q j = 0) :=
  ⟨hq.1, hq.2.1,
    fun i => ⟨committor_nonneg hvalid.1 hker hq i, committor_le_one hvalid.1 hker hq i⟩,
    hq.2.2⟩

lemma fwd_uniq3 : committorUnique P3 A3 B3 := by
  intro v hA0 hB0 hi
  have v0 : v 0 = 0 := hA0 0 (by decide)
  have v2 : v 2 = 0 := hB0 2 (by decide)
  have e := hi 1 (by decide) (by decide)
  rw [Fin.sum_univ_three] at e
  norm_num [P3, v0, v2] at e
  have v1 : v 1 = 0 := by linarith
  funext i
  fin_cases i
  · exact v0
  · exact v1
  · exact v2

lemma valid3 : validInput P3 pi3 A3 B3 :=
  ⟨P3_rowStochastic, pi3_stationary, ⟨0, by decide⟩, ⟨2, by decide⟩, disj3⟩

/-- Witness for C1: the three-state chain's committor `(0, 1/2, 1)` satisfies
all four conclusions. -/
theorem forward_committor_spec_witness :
    0 ≤ qp3 1 ∧ qp3 1 ≤ 1 :=
  (forward_committor_spec P3 pi3 A3 B3 qp3 valid3 fwd_uniq3 qp3_fc).2.2.1 1

/-- Modelled from the spec: the probability, starting from state `i`, that
the chain enters `B` strictly before entering `A`, truncated to the first `t`
steps, by first-step decomposition: absorb on `B` with value `1`, absorb on
`A` with value `0`, otherwise average over one transition. -/
def reachProb {n : ℕ} (P : Fin n → Fin n → K) (A B : Finset (Fin n)) :
    ℕ → Fin n → K
  | 0, i => if i ∈ B then 1 else 0
  | t + 1, i =>
    if i ∈ B then 1
    else if i ∈ A then 0
    else ∑ j, P i j * reachProb P A B t j

lemma reachProb_nonneg {n : ℕ} {P : Fin n → Fin n → K} {A B : Finset (Fin n)}
    (hP : ∀ i j, 0 ≤ P i j) : ∀ t i, 0 ≤ reachProb P A B t i := by
  intro t
  induction t with
  | zero =>
    intro i
    simp only [reachProb]
    split <;> norm_num
  | succ t ih =>
    intro i
    simp only [reachProb]
    split
    · norm_num
    · split
      · norm_num
      · exact Finset.sum_nonneg fun j _ => mul_nonneg (hP i j) (ih j)

lemma reachProb_le_one {n : ℕ} {P : Fin n → Fin n → K} {A B : Finset (Fin n)}
    (hP : rowStochastic P) : ∀ t i, reachProb P A B t i ≤ 1 := by
  intro t
  induction t with
  | zero =>
    intro i
    simp only [reachProb]
    split <;> norm_num
  | succ t ih =>
    intro i
    simp only [reachProb]
    split
    · norm_num
    · split
      · norm_num
      · calc ∑ j, P i j * reachProb P A B t j
            ≤ ∑ j, P i j * 1 :=
              Finset.sum_le_sum fun j _ =>
                mul_le_mul_of_nonneg_left (ih j) (hP.1 i j)
          _ = 1 := by simp [hP.2 i]

lemma reachProb_mono {n : ℕ} {P : Fin n → Fin n → K} {A B : Finset (Fin n)}
    (hP : ∀ i j, 0 ≤ P i j) :
    ∀ t i, reachProb P A B t i ≤ reachProb P A B (t + 1) i := by
  intro t
  induction t with
  | zero =>
    intro i
    by_cases hB : i ∈ B
    · simp [reachProb, hB]
    · by_cases hA : i ∈ A
      · simp [reachProb, hB, hA]
      · simp only [reachProb, if_neg hB, if_neg hA]
        exact Finset.sum_nonneg fun j _ =>
          mul_nonneg (hP i j) (@reachProb_nonneg K _ n P A B hP 0 j)
  | succ t ih =>
    intro i
    by_cases hB : i ∈ B
    · simp [reachProb, hB]
    · by_cases hA : i ∈ A
      · simp [reachProb, hB, hA]
      · simp only [reachProb, if_neg hB, if_neg hA]
        exact Finset.sum_le_sum fun j _ =>
          mul_le_mul_of_nonneg_left (ih j) (hP i j)

lemma reachProb_on_B {n : ℕ} {P : Fin n → Fin n → K} {A B : Finset (Fin n)}
    {i : Fin n} (hi : i ∈ B) : ∀ t, reachProb P A B t i = 1 := by
  intro t
  cases t <;> simp [reachProb, hi]

lemma reachProb_on_A {n : ℕ} {P : Fin n → Fin n → K} {A B : Finset (Fin n)}
    {i : Fin n} (hAB : Disjoint A B) (hi : i ∈ A) :
    ∀ t, reachProb P A B t i = 0 := by
  have hiB : i ∉ B := Finset.disjoint_left.mp hAB hi
  intro t
  cases t <;> simp [reachProb, hi, hiB]

/-- Claim C10: when the boundary value problem is well posed, the forward
committor returned by the solver is the probability of reaching `B` strictly
before `A`: the `t`-step probabilities of that event converge to `q⁺_i` at
every state (consistent with `q⁺ = 0` on `A` and `q⁺ = 1` on `B`, and not
with the reversed `P_i(T_A < T_B)` of the notebook prose). -/
theorem forward_committor_hitting_prob {n : ℕ} (P : Fin n → Fin n → ℝ)
    (A B : Finset (Fin n)) (q : Fin n → ℝ) (hP : rowStochastic P)
    (hAB : Disjoint A B) (hker : committorUnique P A B)
    (hq : isForwardCommittor P A B q) :
    ∀ i, Filter.Tendsto (fun t => reachProb P A B t i)
      Filter.atTop (nhds (q i)) := by
  have hmono : ∀ i, Monotone fun t => reachProb P A B t i := fun i =>
    monotone_nat_of_le_succ fun t => reachProb_mono hP.1 t i
  have hbdd : ∀ i, BddAbove (Set.range fun t => reachProb P A B t i) := by
    intro i
    refine ⟨1, ?_⟩
    rintro x ⟨t, rfl⟩
    exact reachProb_le_one hP t i
  have htend : ∀ i, Filter.Tendsto (fun t => reachProb P A B t i)
      Filter.atTop (nhds (⨆ t, reachProb P A B t i)) := fun i =>
    tendsto_atTop_ciSup (hmono i) (hbdd i)
  set L : Fin n → ℝ := fun i => ⨆ t, reachProb P A B t i with hL
  have hLB : ∀ i ∈ B, L i = 1 := by
    intro i hi
    show (⨆ t, reachProb P A B t i) = 1
    rw [iSup_congr fun t => reachProb_on_B hi t]
    exact ciSup_const
  have hLA : ∀ i ∈ A, L i = 0 := by
    intro i hi
    show (⨆ t, reachProb P A B t i) = 0
    rw [iSup_congr fun t => reachProb_on_A hAB hi t]
    exact ciSup_const
  have hLint : ∀ i, i ∉ A → i ∉ B → ∑ j, P i j * L j = L i := by
    intro i hiA hiB
    have h1 : Filter.Tendsto (fun t => reachProb P A B (t + 1) i)
        Filter.atTop (nhds (L i)) :=
      (htend i).comp (Filter.tendsto_add_atTop_nat 1)
    have h2 : ∀ t, reachProb P A B (t + 1) i
        = ∑ j, P i j * reachProb P A B t j := by
      intro t
      simp [reachProb, hiA, hiB]
    have h3 : Filter.Tendsto (fun t => ∑ j, P i j * reachProb P A B t j)
        Filter.atTop (nhds (∑ j, P i j * L j)) :=
      tendsto_finset_sum _ fun j _ => (htend j).const_mul (P i j)
    rw [show (fun t => reachProb P A B (t + 1) i)
      = fun t => ∑ j, P i j * reachProb P A B t j from funext h2] at h1
    exact tendsto_nhds_unique h3 h1
  have hdiff : (fun i => q i - L i) = 0 := by
    refine hker (fun i => q i - L i) ?_ ?_ ?_
    · intro i hi
      simp [hq.1 i hi, hLA i hi]
    · intro i hi
      simp [hq.2.1 i hi, hLB i hi]
    · intro i hiA hiB
      have hexp : ∀ j, P i j * (q j - L j) = P i j * q j - P i j * L j :=
        fun j => by ring
      rw [Finset.sum_congr rfl fun j _ => hexp j, Finset.sum_sub_distrib,
        forward_interior hq hiA hiB, hLint i hiA hiB]
  intro i
  have hqi : q i = L i := by
    have := congrFun hdiff i
    simp only [Pi.zero_apply] at this
    linarith
  rw [hqi]
  exact htend i

/-! Real-valued view of the three-state chain for the hitting-probability
witness: the rational data cast into `ℝ` (stated inline, since a bare real
constant has no executable code). -/

lemma P3R_rs : rowStochastic (fun i j => ((P3 i j : ℚ) : ℝ)) := by
  constructor
  · intro i j; fin_cases i <;> fin_cases j <;> norm_num [P3]
  · intro i; fin_cases i <;> norm_num [P3, Fin.sum_univ_three]

lemma qp3R_fc : isForwardCommittor (fun i j => ((P3 i j : ℚ) : ℝ)) A3 B3
    (fun i => ((qp3 i : ℚ) : ℝ)) := by
  refine ⟨?_, ?_, ?_⟩
  · intro i hi
    simp only [A3, Finset.mem_singleton] at hi
    subst hi; norm_num [qp3]
  · intro i hi
    simp only [B3, Finset.mem_singleton] at hi
    subst hi; norm_num [qp3]
  · intro i hiA hiB
    simp only [A3, Finset.mem_singleton] at hiA
    simp only [B3, Finset.mem_singleton] at hiB
    fin_cases i
    · exact absurd rfl hiA
    · norm_num [P3, qp3, Fin.sum_univ_three, Fin.ext_iff]
    · exact absurd rfl hiB

lemma fwd_uniq3R : committorUnique (fun i j => ((P3 i j : ℚ) : ℝ)) A3 B3 := by
  intro v hA0 hB0 hi
  have v0 : v 0 = 0 := hA0 0 (by decide)
  have v2 : v 2 = 0 := hB0 2 (by decide)
  have e := hi 1 (by decide) (by decide)
  rw [Fin.sum_univ_three] at e
  norm_num [P3, v0, v2] at e
  have v1 : v 1 = 0 := by linarith
  funext i
  fin_cases i
  · exact v0
  · exact v1
  · exact v2

/-- Witness for C10: on the three-state chain the truncated probabilities of
reaching `B = {2}` before `A = {0}` from state `1` converge to `q⁺_1 = 1/2`. -/
theorem forward_committor_hitting_prob_witness :
    Filter.Tendsto
      (fun t => reachProb (fun i j => ((P3 i j : ℚ) : ℝ)) A3 B3 t 1)
      Filter.atTop (nhds ((qp3 1 : ℚ) : ℝ)) :=
  forward_committor_hitting_prob (fun i j => ((P3 i j : ℚ) : ℝ)) A3 B3
    (fun i => ((qp3 i : ℚ) : ℝ)) P3R_rs disj3 fwd_uniq3R qp3R_fc 1

/-- The list of edges (consecutive pairs) of a path. -/
def pathEdges {n : ℕ} (p : List (Fin n)) : List (Fin n × Fin n) :=
  p.zip p.tail

/-- Minimum of a list of rationals (`0` on the empty list, which never occurs
for the paths produced below -- an `A → B` path with `A` and `B` disjoint has
at least one edge). -/
def listMin : List ℚ → ℚ
  | [] => 0
  | [x] => x
  | x :: y :: r => min x (listMin (y :: r))

/-- Modelled from the spec: the capacity of a pathway is the minimum flux
over its edges. -/
def bottleneck {n : ℕ} (R : Fin n → Fin n → ℚ) (p : List (Fin n)) : ℚ :=
  listMin ((pathEdges p).map fun e => R e.1 e.2)

/-- All simple paths through edges of positive residual flux, starting at
`i`, avoiding `visited`, and stopping at the first state of `B`; `fuel`
bounds the number of further steps. -/
def pathsFrom {n : ℕ} (R : Fin n → Fin n → ℚ) (B : Finset (Fin n)) :
    ℕ → List (Fin n) → Fin n → List (List (Fin n))
  | 0, _, i => if i ∈ B then [[i]] else []
  | fuel + 1, visited, i =>
    if i ∈ B then [[i]]
    else (List.finRange n).flatMap fun j =>
      if 0 < R i j ∧ j ∉ visited then
        (pathsFrom R B fuel (j :: visited) j).map (List.cons i)
      else []

/-- All candidate `A → B` pathways of the residual network. -/
def allPaths {n : ℕ} (R : Fin n → Fin n → ℚ) (A B : Finset (Fin n)) :
    List (List (Fin n)) :=
  (List.finRange n).flatMap fun a =>
    if a ∈ A then pathsFrom R B n [a] a else []

/-- One comparison step of the widest-path search: keep the better of the
candidate `p` and the best seen so far. -/
def pickBest {n : ℕ} (R : Fin n → Fin n → ℚ) (p : List (Fin n)) :
    Option (List (Fin n) × ℚ) → Option (List (Fin n) × ℚ)
  | none => some (p, bottleneck R p)
  | some (q, c) =>
    if bottleneck R p < c then some (q, c) else some (p, bottleneck R p)

/-- Modelled from the spec: widest-path search -- select a candidate path of
maximal bottleneck capacity (ties broken by enumeration order). -/
def pickWidest {n : ℕ} (R : Fin n → Fin n → ℚ) :
    List (List (Fin n)) → Option (List (Fin n) × ℚ)
  | [] => none
  | p :: rest => pickBest R p (pickWidest R rest)

/-- Number of times the edge `(i, j)` occurs on the path `p`. -/
def countEdge {n : ℕ} (p : List (Fin n)) (i j : Fin n) : ℕ :=
  (pathEdges p).count (i, j)

/-- Modelled from the spec: subtract the extracted capacity from every edge
along the path in the residual matrix. -/
def subtractPath {n : ℕ} (R : Fin n → Fin n → ℚ) (c : ℚ) (p : List (Fin n)) :
    Fin n → Fin n → ℚ :=
  fun i j => R i j - c * countEdge p i j

/-- Modelled from the spec: the pathway decomposition loop -- repeatedly
extract a widest path and remove its capacity, until the target captured
flux is reached, no path remains, or the iteration cap `fuel` is hit (in
which case the partial list is returned as a normal result). -/
def pathwaysLoop {n : ℕ} (A B : Finset (Fin n)) (target : ℚ) :
    ℕ → (Fin n → Fin n → ℚ) → ℚ → List (List (Fin n) × ℚ)
  | 0, _, _ => []
  | fuel + 1, R, captured =>
    if target ≤ captured then []
    else
      match pickWidest R (allPaths R A B) with
      | none => []
      | some (p, c) =>
        (p, c) :: pathwaysLoop A B target fuel (subtractPath R c p) (captured + c)

/-- Modelled from the spec: `pathways fraction maxiter` decomposes the gross
flux until `fraction` of the total flux is captured or `maxiter` paths have
been extracted. -/
def pathways {n : ℕ} (f : Fin n → Fin n → ℚ) (A B : Finset (Fin n))
    (fraction : ℚ) (maxiter : ℕ) : List (List (Fin n) × ℚ) :=
  pathwaysLoop A B (fraction * total_flux f A) maxiter f 0

/-- The residual flux left after extracting a list of (path, capacity)
pairs. -/
def residualAfter {n : ℕ} (R : Fin n → Fin n → ℚ)
    (out : List (List (Fin n) × ℚ)) : Fin n → Fin n → ℚ :=
  out.foldl (fun S pc => subtractPath S pc.2 pc.1) R

/-- A valid pathway of the residual network `R`: non-empty, starts in `A`,
ends in `B`, visits no state twice, and uses only edges of positive residual
flux. -/
def IsFluxPath {n : ℕ} (R : Fin n → Fin n → ℚ) (A B : Finset (Fin n))
    (p : List (Fin n)) : Prop :=
  ∃ hne : p ≠ [], p.head hne ∈ A ∧ p.getLast hne ∈ B ∧ p.Nodup ∧
    ∀ e ∈ pathEdges p, 0 < R e.1 e.2

lemma listMin_le {x : ℚ} : ∀ {l : List ℚ}, x ∈ l → listMin l ≤ x := by
  intro l
  induction l with
  | nil => intro h; exact absurd h (List.not_mem_nil x)
  | cons a r ih =>
    intro h
    rcases List.mem_cons.mp h with rfl | hr
    · cases r with
      | nil => exact le_refl _
      | cons b s => exact min_le_left _ _
    · cases r with
      | nil => exact absurd hr (List.not_mem_nil x)
      | cons b s => exact le_trans (min_le_right _ _) (ih hr)

lemma le_listMin {m : ℚ} : ∀ {l : List ℚ}, l ≠ [] → (∀ x ∈ l, m ≤ x) →
    m ≤ listMin l := by
  intro l
  induction l with
  | nil => intro h; exact absurd rfl h
  | cons a r ih =>
    intro _ h
    cases r with
    | nil => exact h a (List.mem_singleton_self a)
    | cons b s =>
      exact le_min (h a (List.mem_cons_self a _))
        (ih (List.cons_ne_nil b s) fun x hx => h x (List.mem_cons_of_mem a hx))

lemma listMin_mem : ∀ {l : List ℚ}, l ≠ [] → listMin l ∈ l := by
  intro l
  induction l with
  | nil => intro h; exact absurd rfl h
  | cons a r ih =>
    intro _
    cases r with
    | nil => exact List.mem_singleton_self a
    | cons b s =>
      rcases le_total a (listMin (b :: s)) with h | h
      · rw [show listMin (a :: b :: s) = min a (listMin (b :: s)) from rfl,
          min_eq_left h]
        exact List.mem_cons_self a _
      · rw [show listMin (a :: b :: s) = min a (listMin (b :: s)) from rfl,
          min_eq_right h]
        exact List.mem_cons_of_mem a (ih (List.cons_ne_nil b s))

lemma listMin_mono : ∀ {l l' : List ℚ}, l.length = l'.length →
    (∀ k (hk : k < l.length) (hk' : k < l'.length), l.get ⟨k, hk⟩ ≤ l'.get ⟨k, hk'⟩) →
    listMin l ≤ listMin l' := by
  intro l
  induction l with
  | nil =>
    intro l' hlen _
    cases l' with
    | nil => exact le_refl _
    | cons b s => exact absurd hlen (by simp)
  | cons a r ih =>
    intro l' hlen hle
    cases l' with
    | nil => exact absurd hlen (by simp)
    | cons b s =>
      have h0 : a ≤ b := hle 0 (by simp) (by simp)
      cases r with
      | nil =>
        cases s with
        | nil => exact h0
        | cons c t => exact absurd hlen (by simp)
      | cons c t =>
        cases s with
        | nil => exact absurd hlen (by simp)
        | cons d u =>
          have hlen' : (c :: t).length = (d :: u).length := by
            simpa using hlen
          have hle' : ∀ k (hk : k < (c :: t).length)
              (hk' : k < (d :: u).length),
              (c :: t).get ⟨k, hk⟩ ≤ (d :: u).get ⟨k, hk'⟩ := by
            intro k hk hk'
            exact hle (k + 1) (by simpa using hk) (by simpa using hk')
          exact min_le_min h0 (ih hlen' hle')

lemma pathEdges_cons_cons {n : ℕ} (a b : Fin n) (l : List (Fin n)) :
    pathEdges (a :: b :: l) = (a, b) :: pathEdges (b :: l) := rfl

lemma pathEdges_fst_mem {n : ℕ} : ∀ {p : List (Fin n)} {e : Fin n × Fin n},
    e ∈ pathEdges p → e.1 ∈ p := by
  intro p
  induction p with
  | nil => intro e he; exact absurd he (List.not_mem_nil e)
  | cons x xs ih =>
    intro e he
    cases xs with
    | nil => exact absurd he (List.not_mem_nil e)
    | cons y ys =>
      rw [pathEdges_cons_cons] at he
      rcases List.mem_cons.mp he with rfl | hrest
      · exact List.mem_cons_self x _
      · exact List.mem_cons_of_mem x (ih hrest)

lemma bottleneck_mono {n : ℕ} {R S : Fin n → Fin n → ℚ} {p : List (Fin n)}
    (h : ∀ e ∈ pathEdges p, R e.1 e.2 ≤ S e.1 e.2) :
    bottleneck R p ≤ bottleneck S p := by
  cases hpe : pathEdges p with
  | nil => simp [bottleneck, hpe, listMin]
  | cons e es =>
    have hne : (pathEdges p).map (fun e => S e.1 e.2) ≠ [] := by simp [hpe]
    obtain ⟨e₁, he₁, heq⟩ := List.mem_map.mp (listMin_mem hne)
    calc bottleneck R p ≤ R e₁.1 e₁.2 :=
          listMin_le (List.mem_map_of_mem _ he₁)
      _ ≤ S e₁.1 e₁.2 := h e₁ he₁
      _ = bottleneck S p := heq

lemma bottleneck_pos {n : ℕ} {R : Fin n → Fin n → ℚ} {p : List (Fin n)}
    (hne : pathEdges p ≠ []) (h : ∀ e ∈ pathEdges p, 0 < R e.1 e.2) :
    0 < bottleneck R p := by
  have hne' : (pathEdges p).map (fun e => R e.1 e.2) ≠ [] := by
    simpa using hne
  obtain ⟨e₁, he₁, heq⟩ := List.mem_map.mp (listMin_mem hne')
  rw [bottleneck, ← heq]
  exact h e₁ he₁

lemma bottleneck_le_edge {n : ℕ} {R : Fin n → Fin n → ℚ} {p : List (Fin n)}
    {e : Fin n × Fin n} (he : e ∈ pathEdges p) : bottleneck R p ≤ R e.1 e.2 :=
  listMin_le (List.mem_map_of_mem _ he)

lemma countEdge_le_one {n : ℕ} : ∀ {p : List (Fin n)}, p.Nodup →
    ∀ i j, countEdge p i j ≤ 1 := by
  intro p
  induction p with
  | nil => intro _ i j; simp [countEdge, pathEdges]
  | cons x xs ih =>
    intro hnd i j
    cases xs with
    | nil => simp [countEdge, pathEdges]
    | cons y ys =>
      rw [countEdge, pathEdges_cons_cons, List.count_cons]
      by_cases he : (x, y) = (i, j)
      · have hx : x ∉ y :: ys := (List.nodup_cons.mp hnd).1
        have hz : (pathEdges (y :: ys)).count (i, j) = 0 := by
          rw [List.count_eq_zero]
          intro hmem
          have : (i, j).1 ∈ y :: ys := pathEdges_fst_mem hmem
          have hxi : x = i := congrArg Prod.fst he
          exact hx (hxi ▸ this)
        rw [hz, if_pos (by exact beq_iff_eq.mpr he)]
      · rw [if_neg (by simpa using he), Nat.add_zero]
        exact ih (List.nodup_cons.mp hnd).2 i j

lemma countEdge_pos_mem {n : ℕ} {p : List (Fin n)} {i j : Fin n}
    (h : 0 < countEdge p i j) : (i, j) ∈ pathEdges p :=
  List.count_pos_iff.mp h

lemma countEdge_mem_pos {n : ℕ} {p : List (Fin n)} {i j : Fin n}
    (h : (i, j) ∈ pathEdges p) : 0 < countEdge p i j :=
  List.count_pos_iff.mpr h

lemma subtractPath_le {n : ℕ} {R : Fin n → Fin n → ℚ} {c : ℚ}
    {p : List (Fin n)} (hc : 0 ≤ c) (i j : Fin n) :
    subtractPath R c p i j ≤ R i j := by
  have h : 0 ≤ c * (countEdge p i j : ℚ) :=
    mul_nonneg hc (Nat.cast_nonneg _)
  simp only [subtractPath]
  linarith

lemma subtractPath_nonneg {n : ℕ} {R : Fin n → Fin n → ℚ} {c : ℚ}
    {p : List (Fin n)} (hR : ∀ i j, 0 ≤ R i j) (hnd : p.Nodup)
    (hcap : ∀ e ∈ pathEdges p, c ≤ R e.1 e.2) :
    ∀ i j, 0 ≤ subtractPath R c p i j := by
  intro i j
  simp only [subtractPath]
  rcases Nat.le_one_iff_eq_zero_or_eq_one.mp (countEdge_le_one hnd i j) with h0 | h1
  · rw [h0]
    norm_num
    exact hR i j
  · have hmem : (i, j) ∈ pathEdges p := countEdge_pos_mem (by omega)
    have hle := hcap (i, j) hmem
    rw [h1]
    norm_num
    linarith

lemma crossing_edge {n : ℕ} {A B : Finset (Fin n)} (hAB : Disjoint A B) :
    ∀ (p : List (Fin n)) (hne : p ≠ []), p.head hne ∈ A →
      p.getLast hne ∈ B → ∃ e ∈ pathEdges p, e.1 ∈ A ∧ e.2 ∉ A := by
  intro p
  induction p with
  | nil => intro h; exact absurd rfl h
  | cons x xs ih =>
    intro hne hh hl
    cases xs with
    | nil =>
      have hxA : x ∈ A := by simpa using hh
      have hxB : x ∈ B := by simpa using hl
      exact absurd hxB (Finset.disjoint_left.mp hAB hxA)
    | cons y ys =>
      by_cases hy : y ∈ A
      · rw [List.getLast_cons (List.cons_ne_nil y ys)] at hl
        obtain ⟨e, hmem, he⟩ := ih (List.cons_ne_nil y ys) (by simpa using hy) hl
        exact ⟨e, by rw [pathEdges_cons_cons]; exact List.mem_cons_of_mem _ hmem, he⟩
      · exact ⟨(x, y), by
          rw [pathEdges_cons_cons]; exact List.mem_cons_self _ _,
          by simpa using hh, hy⟩

lemma total_flux_subtract {n : ℕ} (A : Finset (Fin n))
    (R : Fin n → Fin n → ℚ) (c : ℚ) (p : List (Fin n)) :
    total_flux (subtractPath R c p) A
      = total_flux R A - c * ∑ i ∈ A, ∑ j ∈ Aᶜ, (countEdge p i j : ℚ) := by
  simp only [total_flux, subtractPath]
  have h1 : ∀ i, ∑ j ∈ Aᶜ, (R i j - c * (countEdge p i j : ℚ))
      = ∑ j ∈ Aᶜ, R i j - c * ∑ j ∈ Aᶜ, (countEdge p i j : ℚ) := by
    intro i
    rw [Finset.sum_sub_distrib, Finset.mul_sum]
  rw [Finset.sum_congr rfl fun i _ => h1 i, Finset.sum_sub_distrib,
    Finset.mul_sum]

lemma total_flux_nonneg {n : ℕ} {A : Finset (Fin n)} {R : Fin n → Fin n → ℚ}
    (hR : ∀ i j, 0 ≤ R i j) : 0 ≤ total_flux R A :=
  Finset.sum_nonneg fun i _ => Finset.sum_nonneg fun j _ => hR i j

lemma cut_decrement {n : ℕ} {A B : Finset (Fin n)} (hAB : Disjoint A B)
    {R : Fin n → Fin n → ℚ} {c : ℚ} {p : List (Fin n)} (hc : 0 ≤ c)
    (hne : p ≠ []) (hh : p.head hne ∈ A) (hl : p.getLast hne ∈ B) :
    total_flux (subtractPath R c p) A ≤ total_flux R A - c := by
  rw [total_flux_subtract A R c p]
  obtain ⟨e, hmem, heA, heNA⟩ := crossing_edge hAB p hne hh hl
  have hcnt : 1 ≤ (countEdge p e.1 e.2 : ℚ) := by
    have hmem' : (e.1, e.2) ∈ pathEdges p := by rw [Prod.mk.eta]; exact hmem
    have h : 1 ≤ countEdge p e.1 e.2 := countEdge_mem_pos hmem'
    exact_mod_cast h
  have hsum : (1 : ℚ) ≤ ∑ i ∈ A, ∑ j ∈ Aᶜ, (countEdge p i j : ℚ) := by
    have h1 : ∑ i ∈ A, ∑ j ∈ Aᶜ, (countEdge p i j : ℚ)
        = ∑ x ∈ A ×ˢ Aᶜ, (countEdge p x.1 x.2 : ℚ) := by
      rw [Finset.sum_product]
    rw [h1]
    refine le_trans hcnt ?_
    exact @Finset.single_le_sum (Fin n × Fin n) ℚ _
      (fun x => (countEdge p x.1 x.2 : ℚ)) (A ×ˢ Aᶜ)
      (fun x _ => Nat.cast_nonneg _) (e.1, e.2)
      (Finset.mem_product.mpr ⟨heA, Finset.mem_compl.mpr heNA⟩)
  have hmul : c * 1 ≤ c * ∑ i ∈ A, ∑ j ∈ Aᶜ, (countEdge p i j : ℚ) :=
    mul_le_mul_of_nonneg_left hsum hc
  linarith

lemma pathsFrom_sound {n : ℕ} {R : Fin n → Fin n → ℚ} {B : Finset (Fin n)} :
    ∀ (fuel : ℕ) (visited : List (Fin n)) (i : Fin n) (p : List (Fin n)),
      i ∈ visited → p ∈ pathsFrom R B fuel visited i →
      ∃ hne : p ≠ [],
        p.head hne = i ∧ p.getLast hne ∈ B ∧ p.Nodup ∧
        (∀ e ∈ pathEdges p, 0 < R e.1 e.2) ∧
        (∀ x ∈ p, x ∈ visited → x = i) ∧
        (∀ x ∈ p.dropLast, x ∉ B) := by
  intro fuel
  induction fuel with
  | zero =>
    intro visited i p _ hp
    simp only [pathsFrom] at hp
    by_cases hiB : i ∈ B
    · rw [if_pos hiB, List.mem_singleton] at hp
      subst hp
      refine ⟨List.cons_ne_nil i [], by simp, by simpa using hiB, by simp,
        ?_, ?_, ?_⟩
      · intro e he; exact absurd he (List.not_mem_nil e)
      · intro x hx _; simpa using hx
      · intro x hx; simp at hx
    · rw [if_neg hiB] at hp
      exact absurd hp (List.not_mem_nil p)
  | succ fuel ih =>
    intro visited i p hiv hp
    simp only [pathsFrom] at hp
    by_cases hiB : i ∈ B
    · rw [if_pos hiB, List.mem_singleton] at hp
      subst hp
      refine ⟨List.cons_ne_nil i [], by simp, by simpa using hiB, by simp,
        ?_, ?_, ?_⟩
      · intro e he; exact absurd he (List.not_mem_nil e)
      · intro x hx _; simpa using hx
      · intro x hx; simp at hx
    · rw [if_neg hiB] at hp
      obtain ⟨j, _, hpj⟩ := List.mem_flatMap.mp hp
      by_cases hcond : 0 < R i j ∧ j ∉ visited
      · rw [if_pos hcond] at hpj
        obtain ⟨p', hp', rfl⟩ := List.mem_map.mp hpj
        obtain ⟨hne', hh', hl', hnd', hedge', hvis', hfh'⟩ :=
          ih (j :: visited) j p' (List.mem_cons_self j visited) hp'
        obtain ⟨y, ys, rfl⟩ := List.exists_cons_of_ne_nil hne'
        have hyj : j = y := by simpa using hh'.symm
        subst hyj
        have hinotin : i ∉ j :: ys := by
          intro hip
          have hij := hvis' i hip (List.mem_cons_of_mem j hiv)
          exact hcond.2 (hij ▸ hiv)
        refine ⟨List.cons_ne_nil i _, by simp, ?_, ?_, ?_, ?_, ?_⟩
        · rw [List.getLast_cons hne']
          exact hl'
        · exact List.nodup_cons.mpr ⟨hinotin, hnd'⟩
        · intro e he
          rw [pathEdges_cons_cons] at he
          rcases List.mem_cons.mp he with rfl | hrest
          · exact hcond.1
          · exact hedge' e hrest
        · intro x hx hxv
          rcases List.mem_cons.mp hx with rfl | hx'
          · rfl
          · have hxj := hvis' x hx' (List.mem_cons_of_mem j hxv)
            exact absurd (hxj ▸ hxv) hcond.2
        · intro x hx
          rw [List.dropLast_cons₂] at hx
          rcases List.mem_cons.mp hx with rfl | hx'
          · exact hiB
          · exact hfh' x hx'
      · rw [if_neg hcond] at hpj
        exact absurd hpj (List.not_mem_nil _)

lemma pathsFrom_complete {n : ℕ} {R : Fin n → Fin n → ℚ} {B : Finset (Fin n)} :
    ∀ (fuel : ℕ) (rest : List (Fin n)) (i : Fin n) (visited : List (Fin n)),
      rest.length ≤ fuel →
      (i :: rest).Nodup →
      (i :: rest).getLast (List.cons_ne_nil i rest) ∈ B →
      (∀ x ∈ (i :: rest).dropLast, x ∉ B) →
      (∀ e ∈ pathEdges (i :: rest), 0 < R e.1 e.2) →
      (∀ x ∈ i :: rest, x ∈ visited → x = i) →
      (i :: rest) ∈ pathsFrom R B fuel visited i := by
  intro fuel
  induction fuel with
  | zero =>
    intro rest i visited hlen _ hl _ _ _
    have hrest : rest = [] := List.length_eq_zero.mp (Nat.le_zero.mp hlen)
    subst hrest
    have hiB : i ∈ B := by simpa using hl
    simp [pathsFrom, hiB]
  | succ fuel ih =>
    intro rest i visited hlen hnd hl hfh hedge hvis
    cases rest with
    | nil =>
      have hiB : i ∈ B := by simpa using hl
      simp [pathsFrom, hiB]
    | cons j rest' =>
      have hiB : i ∉ B := by
        apply hfh i
        rw [List.dropLast_cons₂]
        exact List.mem_cons_self i _
      have hij : i ∉ j :: rest' := (List.nodup_cons.mp hnd).1
      have hcond : 0 < R i j ∧ j ∉ visited := by
        constructor
        · apply hedge (i, j)
          rw [pathEdges_cons_cons]
          exact List.mem_cons_self _ _
        · intro hjv
          have hji := hvis j
            (List.mem_cons_of_mem i (List.mem_cons_self j rest')) hjv
          exact hij (hji ▸ List.mem_cons_self j rest')
      simp only [pathsFrom, if_neg hiB]
      refine List.mem_flatMap.mpr ⟨j, List.mem_finRange j, ?_⟩
      rw [if_pos hcond]
      refine List.mem_map.mpr ⟨j :: rest', ?_, rfl⟩
      apply ih rest' j (j :: visited)
      · simpa using hlen
      · exact (List.nodup_cons.mp hnd).2
      · have := hl
        rwa [List.getLast_cons (List.cons_ne_nil j rest')] at this
      · intro x hx
        apply hfh x
        rw [List.dropLast_cons₂]
        exact List.mem_cons_of_mem i hx
      · intro e he
        apply hedge e
        rw [pathEdges_cons_cons]
        exact List.mem_cons_of_mem _ he
      · intro x hx hxv
        rcases List.mem_cons.mp hxv with rfl | hxv'
        · rfl
        · have hxi := hvis x (List.mem_cons_of_mem i hx) hxv'
          exact absurd (hxi ▸ hx) hij

lemma allPaths_sound {n : ℕ} {R : Fin n → Fin n → ℚ} {A B : Finset (Fin n)}
    {p : List (Fin n)} (hp : p ∈ allPaths R A B) :
    ∃ hne : p ≠ [], p.head hne ∈ A ∧ p.getLast hne ∈ B ∧ p.Nodup ∧
      (∀ e ∈ pathEdges p, 0 < R e.1 e.2) ∧ (∀ x ∈ p.dropLast, x ∉ B) := by
  rw [allPaths] at hp
  obtain ⟨a, _, hpa⟩ := List.mem_flatMap.mp hp
  by_cases haA : a ∈ A
  · rw [if_pos haA] at hpa
    obtain ⟨hne, hh, hl, hnd, hedge, _, hfh⟩ :=
      pathsFrom_sound n [a] a p (List.mem_singleton_self a) hpa
    exact ⟨hne, hh ▸ haA, hl, hnd, hedge, hfh⟩
  · rw [if_neg haA] at hpa
    exact absurd hpa (List.not_mem_nil p)

lemma allPaths_complete {n : ℕ} {R : Fin n → Fin n → ℚ} {A B : Finset (Fin n)}
    {p : List (Fin n)} (hne : p ≠ []) (hh : p.head hne ∈ A)
    (hl : p.getLast hne ∈ B) (hnd : p.Nodup)
    (hedge : ∀ e ∈ pathEdges p, 0 < R e.1 e.2)
    (hfh : ∀ x ∈ p.dropLast, x ∉ B) : p ∈ allPaths R A B := by
  obtain ⟨i, rest, rfl⟩ := List.exists_cons_of_ne_nil hne
  rw [allPaths]
  refine List.mem_flatMap.mpr ⟨i, List.mem_finRange i, ?_⟩
  rw [if_pos (by simpa using hh)]
  apply pathsFrom_complete n rest i [i]
  · have hcard := List.Nodup.length_le_card hnd
    rw [Fintype.card_fin] at hcard
    simp only [List.length_cons] at hcard
    omega
  · exact hnd
  · exact hl
  · exact hfh
  · exact hedge
  · intro x _ hxv
    simpa using hxv

lemma pickWidest_none_eq_nil {n : ℕ} {R : Fin n → Fin n → ℚ} :
    ∀ {l : List (List (Fin n))}, pickWidest R l = none → l = [] := by
  intro l h
  cases l with
  | nil => rfl
  | cons p rest =>
    exfalso
    simp only [pickWidest] at h
    rcases hrec : pickWidest R rest with _ | ⟨q, c⟩ <;> rw [hrec] at h <;>
      simp only [pickBest] at h
    · simp at h
    · split at h <;> simp at h

lemma pickWidest_mem {n : ℕ} {R : Fin n → Fin n → ℚ} :
    ∀ {l : List (List (Fin n))} {p : List (Fin n)} {c : ℚ},
      pickWidest R l = some (p, c) → p ∈ l ∧ c = bottleneck R p := by
  intro l
  induction l with
  | nil =>
    intro p c h
    exact absurd h (by simp [pickWidest])
  | cons q rest ih =>
    intro p c h
    simp only [pickWidest] at h
    rcases hrec : pickWidest R rest with _ | ⟨q', c'⟩ <;> rw [hrec] at h <;>
      simp only [pickBest] at h
    · simp only [Option.some.injEq, Prod.mk.injEq] at h
      obtain ⟨rfl, rfl⟩ := h
      exact ⟨List.mem_cons_self _ _, rfl⟩
    · by_cases hlt : bottleneck R q < c'
      · rw [if_pos hlt] at h
        simp only [Option.some.injEq, Prod.mk.injEq] at h
        obtain ⟨rfl, rfl⟩ := h
        obtain ⟨hm, hb⟩ := ih hrec
        exact ⟨List.mem_cons_of_mem _ hm, hb⟩
      · rw [if_neg hlt] at h
        simp only [Option.some.injEq, Prod.mk.injEq] at h
        obtain ⟨rfl, rfl⟩ := h
        exact ⟨List.mem_cons_self _ _, rfl⟩

lemma pickWidest_max {n : ℕ} {R : Fin n → Fin n → ℚ} :
    ∀ {l : List (List (Fin n))} {p : List (Fin n)} {c : ℚ},
      pickWidest R l = some (p, c) → ∀ q ∈ l, bottleneck R q ≤ c := by
  intro l
  induction l with
  | nil =>
    intro p c _ q hq
    exact absurd hq (List.not_mem_nil q)
  | cons q rest ih =>
    intro p c h r hr
    simp only [pickWidest] at h
    rcases hrec : pickWidest R rest with _ | ⟨q', c'⟩ <;> rw [hrec] at h <;>
      simp only [pickBest] at h
    · have hrest : rest = [] := pickWidest_none_eq_nil hrec
      subst hrest
      have hrq : r = q := by simpa using hr
      subst hrq
      simp only [Option.some.injEq, Prod.mk.injEq] at h
      obtain ⟨rfl, rfl⟩ := h
      exact le_refl _
    · by_cases hlt : bottleneck R q < c'
      · rw [if_pos hlt] at h
        simp only [Option.some.injEq, Prod.mk.injEq] at h
        obtain ⟨rfl, rfl⟩ := h
        rcases List.mem_cons.mp hr with rfl | hr'
        · exact le_of_lt hlt
        · exact ih hrec r hr'
      · rw [if_neg hlt] at h
        simp only [Option.some.injEq, Prod.mk.injEq] at h
        obtain ⟨rfl, rfl⟩ := h
        rcases List.mem_cons.mp hr with rfl | hr'
        · exact le_refl _
        · exact le_trans (ih hrec r hr') (le_of_not_lt hlt)

lemma path_edges_ne_nil {n : ℕ} {A B : Finset (Fin n)} (hAB : Disjoint A B)
    {p : List (Fin n)} (hne : p ≠ []) (hh : p.head hne ∈ A)
    (hl : p.getLast hne ∈ B) : pathEdges p ≠ [] := by
  obtain ⟨x, xs, rfl⟩ := List.exists_cons_of_ne_nil hne
  cases xs with
  | nil =>
    have hxA : x ∈ A := by simpa using hh
    have hxB : x ∈ B := by simpa using hl
    exact absurd hxB (Finset.disjoint_left.mp hAB hxA)
  | cons y ys =>
    rw [pathEdges_cons_cons]
    simp

/-- Master invariant of the decomposition loop: every extracted pair is the
widest-path pick of the residual network at its extraction time, and the
extracted capacities sum to at most the `A`-cut of the starting residual. -/
lemma pathwaysLoop_spec {n : ℕ} {A B : Finset (Fin n)} (hAB : Disjoint A B)
    (target : ℚ) :
    ∀ (fuel : ℕ) (R : Fin n → Fin n → ℚ) (captured : ℚ), (∀ i j, 0 ≤ R i j) →
      (∀ k (hk : k < (pathwaysLoop A B target fuel R captured).length),
        pickWidest (residualAfter R ((pathwaysLoop A B target fuel R captured).take k))
          (allPaths
            (residualAfter R ((pathwaysLoop A B target fuel R captured).take k)) A B)
          = some ((pathwaysLoop A B target fuel R captured).get ⟨k, hk⟩)) ∧
      ((pathwaysLoop A B target fuel R captured).map Prod.snd).sum
        ≤ total_flux R A := by
  intro fuel
  induction fuel with
  | zero =>
    intro R captured hR
    constructor
    · intro k hk
      simp [pathwaysLoop] at hk
    · simp only [pathwaysLoop, List.map_nil, List.sum_nil]
      exact total_flux_nonneg hR
  | succ fuel ih =>
    intro R captured hR
    by_cases htc : target ≤ captured
    · constructor
      · intro k hk
        simp [pathwaysLoop, if_pos htc] at hk
      · simp only [pathwaysLoop, if_pos htc, List.map_nil, List.sum_nil]
        exact total_flux_nonneg hR
    · rcases hpick : pickWidest R (allPaths R A B) with _ | ⟨p, c⟩
      · constructor
        · intro k hk
          simp [pathwaysLoop, if_neg htc, hpick] at hk
        · simp only [pathwaysLoop, if_neg htc, hpick, List.map_nil,
            List.sum_nil]
          exact total_flux_nonneg hR
      · have hout : pathwaysLoop A B target (fuel + 1) R captured
            = (p, c) :: pathwaysLoop A B target fuel (subtractPath R c p)
                (captured + c) := by
          simp [pathwaysLoop, if_neg htc, hpick]
        obtain ⟨hmem, hceq⟩ := pickWidest_mem hpick
        obtain ⟨hne, hh, hl, hnd, hedge, _⟩ := allPaths_sound hmem
        have hedges_ne : pathEdges p ≠ [] := by
          obtain ⟨x, xs, rfl⟩ := List.exists_cons_of_ne_nil hne
          cases xs with
          | nil =>
            have hxA : x ∈ A := by simpa using hh
            have hxB : x ∈ B := by simpa using hl
            exact absurd hxB (Finset.disjoint_left.mp hAB hxA)
          | cons y ys =>
            rw [pathEdges_cons_cons]
            simp
        have hcpos : 0 < c := hceq ▸ bottleneck_pos hedges_ne hedge
        have hcap : ∀ e ∈ pathEdges p, c ≤ R e.1 e.2 := fun e he =>
          hceq ▸ bottleneck_le_edge he
        have hR' : ∀ i j, 0 ≤ subtractPath R c p i j :=
          subtractPath_nonneg hR hnd hcap
        obtain ⟨iha, ihb⟩ := ih (subtractPath R c p) (captured + c) hR'
        rw [hout]
        constructor
        · intro k hk
          cases k with
          | zero =>
            simpa [residualAfter] using hpick
          | succ k =>
            have hk' : k < (pathwaysLoop A B target fuel (subtractPath R c p)
                (captured + c)).length := by
              simpa using hk
            have hstep := iha k hk'
            simpa [residualAfter] using hstep
        · have hcut : total_flux (subtractPath R c p) A ≤ total_flux R A - c :=
            cut_decrement hAB (le_of_lt hcpos) hne hh hl
          simp only [List.map_cons, List.sum_cons]
          linarith

lemma residualAfter_le {n : ℕ} :
    ∀ (l : List (List (Fin n) × ℚ)) (R : Fin n → Fin n → ℚ),
      (∀ pc ∈ l, 0 ≤ pc.2) → ∀ i j, residualAfter R l i j ≤ R i j := by
  intro l
  induction l with
  | nil => intro R _ i j; exact le_refl _
  | cons pc rest ih =>
    intro R hpos i j
    have h1 : residualAfter R (pc :: rest)
        = residualAfter (subtractPath R pc.2 pc.1) rest := rfl
    rw [h1]
    exact le_trans
      (ih _ (fun x hx => hpos x (List.mem_cons_of_mem pc hx)) i j)
      (subtractPath_le (hpos pc (List.mem_cons_self pc rest)) i j)

lemma residualAfter_take_le {n : ℕ} (f : Fin n → Fin n → ℚ)
    (out : List (List (Fin n) × ℚ)) (hpos : ∀ pc ∈ out, 0 ≤ pc.2)
    {k l : ℕ} (hkl : k ≤ l) :
    ∀ i j, residualAfter f (out.take l) i j
      ≤ residualAfter f (out.take k) i j := by
  intro i j
  have hsplit : out.take l = out.take k ++ (out.drop k).take (l - k) := by
    rw [← List.take_add]
    congr 1
    omega
  rw [hsplit, residualAfter, List.foldl_append]
  exact residualAfter_le _ _
    (fun pc hpc => hpos pc
      ((List.drop_sublist k out).subset ((List.take_sublist _ _).subset hpc)))
    i j

/-- Claim C7: every pathway returned by `pathways` starts in `A`, ends in
`B`, visits no state twice, and uses only edges of positive residual gross
flux at the time it was extracted; its recorded capacity is the bottleneck
(minimum residual edge flux) of the path at that time; the capacities sum to
at most the total flux; and the list is ordered strongest-first. -/
theorem pathways_spec {n : ℕ} (f : Fin n → Fin n → ℚ) (A B : Finset (Fin n))
    (fraction : ℚ) (maxiter : ℕ) (hf : ∀ i j, 0 ≤ f i j) (hAB : Disjoint A B) :
    (∀ k (hk : k < (pathways f A B fraction maxiter).length),
      IsFluxPath
        (residualAfter f ((pathways f A B fraction maxiter).take k)) A B
        ((pathways f A B fraction maxiter).get ⟨k, hk⟩).1 ∧
      ((pathways f A B fraction maxiter).get ⟨k, hk⟩).2
        = bottleneck
            (residualAfter f ((pathways f A B fraction maxiter).take k))
            ((pathways f A B fraction maxiter).get ⟨k, hk⟩).1) ∧
    ((pathways f A B fraction maxiter).map Prod.snd).sum ≤ total_flux f A ∧
    ((pathways f A B fraction maxiter).map Prod.snd).Sorted (· ≥ ·) := by
  obtain ⟨ha, hb⟩ := pathwaysLoop_spec hAB (fraction * total_flux f A)
    maxiter f 0 hf
  have hdef : pathways f A B fraction maxiter
      = pathwaysLoop A B (fraction * total_flux f A) maxiter f 0 := rfl
  rw [← hdef] at ha hb
  refine ⟨?_, hb, ?_⟩
  · intro k hk
    have h := ha k hk
    obtain ⟨hmem, hceq⟩ := pickWidest_mem h
    obtain ⟨hne, hh, hl, hnd, hedge, _⟩ := allPaths_sound hmem
    exact ⟨⟨hne, hh, hl, hnd, hedge⟩, hceq⟩
  · have hpos_all : ∀ pc ∈ pathways f A B fraction maxiter, 0 ≤ pc.2 := by
      intro pc hpc
      obtain ⟨idx, hidx⟩ := List.mem_iff_get.mp hpc
      have h := ha idx.1 idx.2
      obtain ⟨hmem, hceq⟩ := pickWidest_mem h
      obtain ⟨hne, hh, hl, hnd, hedge, _⟩ := allPaths_sound hmem
      have hedges_ne := path_edges_ne_nil hAB hne hh hl
      have hcpos : 0 < ((pathways f A B fraction maxiter).get idx).2 :=
        hceq ▸ bottleneck_pos hedges_ne hedge
      rw [← hidx]
      exact le_of_lt hcpos
    show List.Pairwise (· ≥ ·)
      ((pathways f A B fraction maxiter).map Prod.snd)
    refine List.Pairwise.map Prod.snd (fun a b hab => hab) ?_
    rw [List.pairwise_iff_get]
    intro i j hij
    have hi := ha i.1 i.2
    have hj := ha j.1 j.2
    obtain ⟨hmemj, hceqj⟩ := pickWidest_mem hj
    obtain ⟨hnej, hhj, hlj, hndj, hedgej, hfhj⟩ := allPaths_sound hmemj
    have hRle : ∀ a b,
        residualAfter f ((pathways f A B fraction maxiter).take j.1) a b
          ≤ residualAfter f ((pathways f A B fraction maxiter).take i.1) a b :=
      residualAfter_take_le f _ hpos_all (le_of_lt hij)
    have hedgek : ∀ e ∈ pathEdges ((pathways f A B fraction maxiter).get j).1,
        0 < residualAfter f ((pathways f A B fraction maxiter).take i.1)
          e.1 e.2 :=
      fun e he => lt_of_lt_of_le (hedgej e he) (hRle e.1 e.2)
    have hmemk : ((pathways f A B fraction maxiter).get j).1
        ∈ allPaths
            (residualAfter f ((pathways f A B fraction maxiter).take i.1))
            A B :=
      allPaths_complete hnej hhj hlj hndj hedgek hfhj
    have hmax := pickWidest_max hi _ hmemk
    calc ((pathways f A B fraction maxiter).get j).2
        = bottleneck
            (residualAfter f ((pathways f A B fraction maxiter).take j.1))
            ((pathways f A B fraction maxiter).get j).1 := hceqj
      _ ≤ bottleneck
            (residualAfter f ((pathways f A B fraction maxiter).take i.1))
            ((pathways f A B fraction maxiter).get j).1 :=
          bottleneck_mono (fun e _ => hRle e.1 e.2)
      _ ≤ ((pathways f A B fraction maxiter).get i).2 := hmax

lemma pathwaysLoop_length {n : ℕ} (A B : Finset (Fin n)) (target : ℚ) :
    ∀ (fuel : ℕ) (R : Fin n → Fin n → ℚ) (captured : ℚ),
      (pathwaysLoop A B target fuel R captured).length ≤ fuel := by
  intro fuel
  induction fuel with
  | zero => intro R captured; simp [pathwaysLoop]
  | succ fuel ih =>
    intro R captured
    by_cases htc : target ≤ captured
    · simp [pathwaysLoop, if_pos htc]
    · rcases hpick : pickWidest R (allPaths R A B) with _ | ⟨p, c⟩
      · simp [pathwaysLoop, if_neg htc, hpick]
      · simp only [pathwaysLoop, if_neg htc, hpick, List.length_cons]
        exact Nat.succ_le_succ (ih _ _)

lemma pathwaysLoop_take {n : ℕ} (A B : Finset (Fin n)) (target : ℚ) :
    ∀ (m m' : ℕ), m ≤ m' → ∀ (R : Fin n → Fin n → ℚ) (captured : ℚ),
      pathwaysLoop A B target m R captured
        = (pathwaysLoop A B target m' R captured).take m := by
  intro m
  induction m with
  | zero => intro m' _ R captured; simp [pathwaysLoop]
  | succ m ih =>
    intro m' hmm' R captured
    cases m' with
    | zero => omega
    | succ m'' =>
      by_cases htc : target ≤ captured
      · simp [pathwaysLoop, if_pos htc]
      · rcases hpick : pickWidest R (allPaths R A B) with _ | ⟨p, c⟩
        · simp [pathwaysLoop, if_neg htc, hpick]
        · simp only [pathwaysLoop, if_neg htc, hpick, List.take_succ_cons]
          congr 1
          exact ih m'' (by omega) _ _

/-- Claim C8: the `maxiter` cap is a soft limit -- `pathways` always returns
a plain list (never an error), with at most `maxiter` entries, and hitting
the cap simply truncates the longer decomposition: the result with cap `m`
is exactly the first `m` entries of the result with any larger cap. -/
theorem pathways_maxiter_partial {n : ℕ} (f : Fin n → Fin n → ℚ)
    (A B : Finset (Fin n)) (fraction : ℚ) (m m' : ℕ) (h : m ≤ m') :
    (pathways f A B fraction m).length ≤ m ∧
    pathways f A B fraction m = (pathways f A B fraction m').take m :=
  ⟨pathwaysLoop_length A B (fraction * total_flux f A) m f 0,
    pathwaysLoop_take A B (fraction * total_flux f A) m m' h f 0⟩

/-- Witness for C8 on the three-state chain's gross flux with caps `1 ≤ 5`. -/
theorem pathways_maxiter_partial_witness :
    (pathways (gross_flux P3 pi3 qm3 qp3) A3 B3 1 1).length ≤ 1 ∧
    pathways (gross_flux P3 pi3 qm3 qp3) A3 B3 1 1
      = (pathways (gross_flux P3 pi3 qm3 qp3) A3 B3 1 5).take 1 :=
  pathways_maxiter_partial (gross_flux P3 pi3 qm3 qp3) A3 B3 1 1 5
    (by decide)

lemma gross3_nonneg : ∀ i j, 0 ≤ gross_flux P3 pi3 qm3 qp3 i j := by
  intro i j
  fin_cases i <;> fin_cases j <;>
    norm_num [gross_flux, P3, pi3, qm3, qp3, Fin.ext_iff]

/-- Witness for C7: on the three-state chain the capacities extracted by the
pathway decomposition sum to at most the total flux. -/
theorem pathways_spec_witness :
    ((pathways (gross_flux P3 pi3 qm3 qp3) A3 B3 1 10).map Prod.snd).sum
      ≤ total_flux (gross_flux P3 pi3 qm3 qp3) A3 :=
  (pathways_spec (gross_flux P3 pi3 qm3 qp3) A3 B3 1 10 gross3_nonneg
    disj3).2.1

end TPT
